import Mathlib

/-!
Verification of the poke-http core: the request-file parser (`src/http/parser.rs`),
the variable-substitution engine (`src/variable.rs`), and the interactive session
state machine (`src/tui/app.rs`, `src/tui/events.rs`, `src/tui/mod.rs`).

Text is embedded as `List Char`. Rust's Unicode-aware character classes
(`\w`, whitespace, case mapping) are embedded with Lean's ASCII-oriented
`Char` predicates; every claim is about ASCII program text, where the two agree.
-/

deriving instance DecidableEq for Except

namespace Poke

abbrev Str := List Char

/-- Embeds the `\w` character class of the regex `\{\{(\w+)\}\}` (word character). -/
def isWordChar (c : Char) : Bool := c.isAlphanum || c = '_'

/-- The literal text of a `{{name}}` placeholder token (`&cap[0]` in `substitute`). -/
def tok (n : Str) : Str := '{' :: '{' :: (n ++ ['}', '}'])

/-- A nonempty all-word-character capture name, as produced by `\{\{(\w+)\}\}`. -/
def WordStr (n : Str) : Prop := n ≠ [] ∧ ∀ c ∈ n, isWordChar c

instance (n : Str) : Decidable (WordStr n) := by unfold WordStr; infer_instance

/-- Scanner for the leftmost non-overlapping matches of `\{\{(\w+)\}\}`
(`Regex::captures_iter` in `src/variable.rs` and `src/tui/app.rs`).
`skip` counts characters of an already-emitted match still to be consumed,
keeping the recursion structural. -/
def scanAux : Str → Nat → List Str
  | [], _ => []
  | _ :: s, skip + 1 => scanAux s skip
  | c :: s, 0 =>
    match c, s with
    | '{', '{' :: rest =>
      let run := rest.takeWhile isWordChar
      if run.isEmpty then scanAux s 0
      else if ['}', '}'].isPrefixOf (rest.drop run.length)
      then run :: scanAux s (run.length + 3)
      else scanAux s 0
    | _, _ => scanAux s 0

/-- The capture names of the leftmost non-overlapping `\{\{(\w+)\}\}` matches, in order. -/
def scanTokens (s : Str) : List Str := scanAux s 0

/-- One pass of Rust `str::replace`: replace every non-overlapping leftmost
occurrence of `pat` in the scanned string by `repl`. `skip` counts the
remaining characters of a matched occurrence, keeping the recursion structural. -/
def goRepl (pat repl : Str) : Str → Nat → Str
  | [], _ => []
  | _ :: s, skip + 1 => goRepl pat repl s skip
  | c :: s, 0 =>
    if pat.isPrefixOf (c :: s) then repl ++ goRepl pat repl s (pat.length - 1)
    else c :: goRepl pat repl s 0

/-- Rust `str::replace(pat, repl)`. The `pat = []` guard is unreachable at every
call site (`pat` is always a `{{name}}` token, which is nonempty). -/
def replaceAll (s pat repl : Str) : Str :=
  if pat.isEmpty then s else goRepl pat repl s 0

/-- The variable table / header map: Rust `HashMap<String, String>` embedded as
an association list with a fixed iteration order; `insertVar` overwrites in
place, so keys stay unique and iteration order is deterministic. -/
abbrev VarTable := List (Str × Str)

def lookupVar (m : VarTable) (n : Str) : Option Str :=
  (m.find? (fun p => p.1 == n)).map (·.2)

/-- `HashMap::insert`: overwrite the value for an existing key, else add the pair. -/
def insertVar (m : VarTable) (k v : Str) : VarTable :=
  if m.any (fun p => p.1 == k) then m.map (fun p => if p.1 == k then (k, v) else p)
  else m ++ [(k, v)]

inductive VariableError where
  | undefinedVariable (name : Str)
deriving DecidableEq

/-- The `Display` text of `VariableError::UndefinedVariable` (asserted by the
test `test_substitute_undefined_variable`). -/
def VariableError.display : VariableError → Str
  | .undefinedVariable n => "Undefined variable: ".toList ++ n

/-- The loop body of `substitute`: for each capture of the original text in
order, fail on the first name with no entry, else replace every occurrence of
the token in the accumulated result. -/
def substLoop (vars : VarTable) : List Str → Str → Except VariableError Str
  | [], res => .ok res
  | n :: caps, res =>
    match lookupVar vars n with
    | some v => substLoop vars caps (replaceAll res (tok n) v)
    | none => .error (.undefinedVariable n)

/-- `substitute` from `src/variable.rs`: scan the original text once for
`{{name}}` captures, then fold replacement passes over a result accumulator. -/
def substitute (text : Str) (vars : VarTable) : Except VariableError Str :=
  substLoop vars (scanTokens text) text

/-! ## Request-file parser (`src/http/parser.rs`, `src/http/request.rs`) -/

inductive Method where
  | get | post | put | patch | delete | head | options
deriving DecidableEq

/-- `Method::from_str` (case-insensitive; ASCII uppercase embeds Rust `to_uppercase`). -/
def parseMethod (s : Str) : Option Method :=
  let u := s.map Char.toUpper
  if u = "GET".toList then some .get
  else if u = "POST".toList then some .post
  else if u = "PUT".toList then some .put
  else if u = "PATCH".toList then some .patch
  else if u = "DELETE".toList then some .delete
  else if u = "HEAD".toList then some .head
  else if u = "OPTIONS".toList then some .options
  else none

structure Request where
  name : Option Str
  method : Method
  url : Str
  headers : VarTable
  body : Option Str
deriving DecidableEq

/-- `HttpFile` without the source path (the path plays no role in any claim).
The `variables` field is called `vars` (`variables` is not a usable name in Lean). -/
structure HttpFile where
  requests : List Request
  vars : VarTable
deriving DecidableEq

/-- Rust `char::is_whitespace` restricted to ASCII. -/
def isWs (c : Char) : Bool := c.isWhitespace

def trimEnd (s : Str) : Str := (s.reverse.dropWhile isWs).reverse

def trim (s : Str) : Str := (s.dropWhile isWs).reverse.dropWhile isWs |>.reverse

/-- Rust `str::split_whitespace` (no empty items). -/
def splitWsAux : Str → Str → List Str
  | [], acc => if acc.isEmpty then [] else [acc]
  | c :: s, acc =>
    if isWs c then (if acc.isEmpty then splitWsAux s [] else acc :: splitWsAux s [])
    else splitWsAux s (acc ++ [c])

def splitWs (s : Str) : List Str := splitWsAux s []

/-- Rust `str::lines`: split at `'\n'`, no entry for a final line terminator,
one trailing `'\r'` stripped per line. -/
def splitNl : Str → List Str
  | [] => [[]]
  | c :: s =>
    match splitNl s with
    | h :: t => if c = '\n' then [] :: h :: t else (c :: h) :: t
    | [] => [[c]]

def linesOf (s : Str) : List Str :=
  let parts := splitNl s
  let parts := if parts.getLast? = some [] then parts.dropLast else parts
  parts.map (fun l => if l.getLast? = some '\r' then l.dropLast else l)

/-- `Parser::try_parse_variable`: `@name = value`, name before the first `=`
(trimmed, nonempty), value after it (trimmed). -/
def tryParseVariable (line : Str) : Option (Str × Str) :=
  match line with
  | '@' :: rest =>
    let pre := rest.takeWhile (fun c => c ≠ '=')
    if pre.length = rest.length then none
    else
      let name := trim pre
      let value := trim (rest.drop (pre.length + 1))
      if name.isEmpty then none else some (name, value)
  | _ => none

/-- `Parser::try_parse_header`: split at the first `:`, trim both parts,
reject a key containing a space. -/
def tryParseHeader (line : Str) : Option (Str × Str) :=
  let pre := line.takeWhile (fun c => c ≠ ':')
  if pre.length = line.length then none
  else
    let key := trim pre
    let value := trim (line.drop (pre.length + 1))
    if key.contains ' ' then none else some (key, value)

structure RequestBuilder where
  name : Option Str
  method : Method
  url : Str
  headers : List (Str × Str)
  bodyLines : List Str
  headersDone : Bool
deriving DecidableEq

inductive ParseError where
  | invalidMethod (s : Str)
  | invalidFormat (s : Str)
  | ioError (s : Str)
deriving DecidableEq

/-- `Parser::try_parse_request_line` (the Rust version wraps the result in `Ok`;
a method-parse failure becomes `Ok(None)`, never an error). -/
def tryParseRequestLine (line : Str) (name : Option Str) : Option RequestBuilder :=
  match splitWs line with
  | m :: u :: _ =>
    (parseMethod m).map fun meth =>
      { name := name, method := meth, url := u
        headers := [], bodyLines := [], headersDone := false }
  | _ => none

/-- `RequestBuilder::build`: headers folded into the map in order (later key
overwrites), body lines joined with `'\n'`, trimmed, empty normalised to none. -/
def RequestBuilder.build (b : RequestBuilder) : Except ParseError Request :=
  let body := trim (List.intercalate ['\n'] b.bodyLines)
  .ok { name := b.name, method := b.method, url := b.url
        headers := b.headers.foldl (fun m p => insertVar m p.1 p.2) []
        body := if body.isEmpty then none else some body }

structure ParserSt where
  requests : List Request
  vars : VarTable
  currentName : Option Str
  currentRequest : Option RequestBuilder
deriving DecidableEq

def ParserSt.init : ParserSt :=
  { requests := [], vars := [], currentName := none, currentRequest := none }

/-- The body of the per-line loop of `Parser::parse_content`, in the source's
rule order. Note the faithful quirk: when no request is open, `current_name.take()`
is consumed by the request-line attempt even when that attempt fails. -/
def parseLine (st : ParserSt) (rawLine : Str) : Except ParseError ParserSt :=
  let line := trimEnd rawLine
  match tryParseVariable line with
  | some (n, v) => .ok { st with vars := insertVar st.vars n v }
  | none =>
    if "###".toList.isPrefixOf line then
      match st.currentRequest with
      | some b => do
        let r ← b.build
        let name := trim (line.dropWhile (fun c => c = '#'))
        .ok { st with requests := st.requests ++ [r], currentRequest := none
                      currentName := if name.isEmpty then none else some name }
      | none =>
        let name := trim (line.dropWhile (fun c => c = '#'))
        .ok { st with currentName := if name.isEmpty then none else some name }
    else if ['#'].isPrefixOf line ∨ "//".toList.isPrefixOf line then .ok st
    else if line.isEmpty then
      .ok (match st.currentRequest with
        | some b =>
          let b := if b.headersDone then { b with bodyLines := b.bodyLines ++ [[]] }
                   else { b with headersDone := true }
          { st with currentRequest := some b }
        | none => st)
    else
      match st.currentRequest with
      | none =>
        (match tryParseRequestLine line st.currentName with
          | some b => .ok { st with currentRequest := some b, currentName := none }
          | none => .ok { st with currentName := none })
      | some b =>
        if ¬ b.headersDone then
          match tryParseHeader line with
          | some (k, v) =>
            .ok { st with currentRequest := some { b with headers := b.headers ++ [(k, v)] } }
          | none =>
            let b := { b with headersDone := true, bodyLines := b.bodyLines ++ [line] }
            .ok { st with currentRequest := some b }
        else
          .ok { st with currentRequest := some { b with bodyLines := b.bodyLines ++ [line] } }

/-- `Parser::parse_content`. -/
def parseContent (content : Str) : Except ParseError (List Request × VarTable) := do
  let st ← (linesOf content).foldlM parseLine ParserSt.init
  match st.currentRequest with
  | some b => do
    let r ← b.build
    .ok (st.requests ++ [r], st.vars)
  | none => .ok (st.requests, st.vars)

/-! ## Session state (`src/tui/app.rs`) -/

/-- `client::Response`; `duration` is an abstract count (`Duration::ZERO` = 0). -/
structure Response where
  status : Nat
  status_text : Str
  headers : List (Str × Str)
  body : Str
  duration : Nat
deriving DecidableEq

/-- `HistoryEntry`; the timestamp is an abstract count. -/
structure HistoryEntry where
  request : Request
  response : Response
  timestamp : Nat
deriving DecidableEq

inductive Focus where
  | RequestList | ResponseBody | RequestDetails | VariablesList | HistoryList | HistoryDetail
deriving DecidableEq

inductive ResponseTab where
  | Body | Headers
deriving DecidableEq

/-- The `u16` scroll fields saturate at 65535 on increment. -/
def u16SatAdd (x k : Nat) : Nat := min (x + k) 65535

structure App where
  http_file : HttpFile
  selected : Nat
  selected_variable : Nat
  last_response : Option Response
  should_quit : Bool
  focus : Focus
  response_scroll : Nat
  response_tab : ResponseTab
  headers_scroll : Nat
  request_details_scroll : Nat
  request_details_visible_height : Nat
  loading : Bool
  filter_text : Str
  filter_active : Bool
  history : List HistoryEntry
  history_view_active : Bool
  selected_history : Nat
  history_detail_scroll : Nat
deriving DecidableEq

def App.new (http_file : HttpFile) : App :=
  { http_file := http_file, selected := 0, selected_variable := 0, last_response := none
    should_quit := false, focus := .RequestList, response_scroll := 0, response_tab := .Body
    headers_scroll := 0, request_details_scroll := 0, request_details_visible_height := 0
    loading := false, filter_text := [], filter_active := false, history := []
    history_view_active := false, selected_history := 0, history_detail_scroll := 0 }

def lowerStr (s : Str) : Str := s.map Char.toLower

/-- Rust `str::contains(needle)` for plain-string needles. -/
def containsStr (needle : Str) : Str → Bool
  | [] => needle.isEmpty
  | c :: t => needle.isPrefixOf (c :: t) || containsStr needle t

/-- `App::filtered_requests`: the `(original index, request)` pairs whose name or
URL contains the filter text case-insensitively; all requests when the filter is
inactive or its text empty. -/
def App.filtered_requests (app : App) : List (Nat × Request) :=
  if ¬ app.filter_active ∨ app.filter_text.isEmpty then app.http_file.requests.enum
  else
    let filter_lower := lowerStr app.filter_text
    app.http_file.requests.enum.filter fun p =>
      let name_matches := (p.2.name.map fun n => containsStr filter_lower (lowerStr n)).getD false
      let url_matches := containsStr filter_lower (lowerStr p.2.url)
      name_matches || url_matches

/-- `App::selected_request`. The Rust code indexes `requests[idx]` with the
index carried by the filtered pair; that index is in bounds by construction of
`enumerate`, and the pair's own request is used as the (never reached) default. -/
def App.selected_request (app : App) : Option Request :=
  if app.filter_active then
    ((app.filtered_requests).get? app.selected).map fun p => app.http_file.requests.getD p.1 p.2
  else app.http_file.requests.get? app.selected

def App.enter_filter_mode (app : App) : App :=
  { app with filter_active := true, selected := 0 }

def App.exit_filter_mode (app : App) : App :=
  { app with filter_active := false, filter_text := [], selected := 0 }

def App.filter_append_char (app : App) (c : Char) : App :=
  { app with filter_text := app.filter_text ++ [c], selected := 0 }

def App.filter_backspace (app : App) : App :=
  { app with filter_text := app.filter_text.dropLast, selected := 0 }

def App.select_previous (app : App) : App :=
  if app.selected > 0 then
    { app with selected := app.selected - 1, selected_variable := 0, request_details_scroll := 0 }
  else app

def App.select_next (app : App) : App :=
  let max := if app.filter_active then app.filtered_requests.length - 1
             else app.http_file.requests.length - 1
  if app.selected < max then
    { app with selected := app.selected + 1, selected_variable := 0, request_details_scroll := 0 }
  else app

def App.toggle_focus (app : App) : App :=
  { app with focus :=
      match app.focus with
      | .RequestList => .ResponseBody
      | .ResponseBody => .RequestDetails
      | .RequestDetails => .VariablesList
      | .VariablesList => .RequestList
      | .HistoryList => .HistoryList
      | .HistoryDetail => .HistoryList }

def App.scroll_up (app : App) : App := { app with response_scroll := app.response_scroll - 1 }

def App.scroll_down (app : App) : App :=
  { app with response_scroll := u16SatAdd app.response_scroll 1 }

def App.switch_to_body_tab (app : App) : App := { app with response_tab := .Body }

def App.switch_to_headers_tab (app : App) : App := { app with response_tab := .Headers }

def App.scroll_headers_up (app : App) : App :=
  { app with headers_scroll := app.headers_scroll - 1 }

def App.scroll_headers_down (app : App) : App :=
  { app with headers_scroll := u16SatAdd app.headers_scroll 1 }

def App.quit (app : App) : App := { app with should_quit := true }

def App.scroll_request_details_up (app : App) : App :=
  { app with request_details_scroll := app.request_details_scroll - 1 }

def App.request_details_content_lines (app : App) : Nat :=
  match app.selected_request with
  | none => 1
  | some request =>
    1 + request.headers.length +
      (match request.body with
       | some body => (if ¬ request.headers.isEmpty then 1 else 0) + (linesOf body).length
       | none => 0)

def App.scroll_request_details_down (app : App) : App :=
  let content_lines := app.request_details_content_lines % 65536
  let visible := app.request_details_visible_height - 2
  let max_scroll := content_lines - visible
  if app.request_details_scroll < max_scroll then
    { app with request_details_scroll := u16SatAdd app.request_details_scroll 1 }
  else app

/-- `var_names.retain(|name| seen.insert(name.clone()))` with `seen` an
initially-empty `HashSet`: keep the first occurrence of each name. -/
def dedupSeen (seen : List Str) : List Str → List Str
  | [] => []
  | x :: xs => if x ∈ seen then dedupSeen seen xs else x :: dedupSeen (x :: seen) xs

/-- `App::get_used_variables`: `{{name}}` captures of the selected request's
URL, header values and body, first occurrence kept (`seen.insert` retain),
then those with a table entry paired with their values. -/
def App.get_used_variables (app : App) : List (Str × Str) :=
  match app.selected_request with
  | none => []
  | some request =>
    let var_names := scanTokens request.url
      ++ (request.headers.map (fun p => scanTokens p.2)).flatten
      ++ (match request.body with | some body => scanTokens body | none => [])
    let var_names := dedupSeen [] var_names
    var_names.filterMap fun n => (lookupVar app.http_file.vars n).map fun v => (n, v)

def App.select_previous_variable (app : App) : App :=
  if app.selected_variable > 0 then { app with selected_variable := app.selected_variable - 1 }
  else app

def App.select_next_variable (app : App) : App :=
  let max := app.get_used_variables.length - 1
  if app.selected_variable < max then { app with selected_variable := app.selected_variable + 1 }
  else app

def App.add_history_entry (app : App) (entry : HistoryEntry) : App :=
  { app with history := app.history ++ [entry] }

def App.toggle_history_view (app : App) : App :=
  let app := { app with history_view_active := ¬ app.history_view_active }
  let app :=
    if app.history_view_active then
      let app := { app with focus := .HistoryList }
      if ¬ app.history.isEmpty then { app with selected_history := app.history.length - 1 }
      else app
    else { app with focus := .RequestList }
  { app with history_detail_scroll := 0 }

def App.selected_history_entry (app : App) : Option HistoryEntry :=
  app.history.get? app.selected_history

def App.select_previous_history (app : App) : App :=
  if app.selected_history > 0 then
    { app with selected_history := app.selected_history - 1, history_detail_scroll := 0 }
  else app

def App.select_next_history (app : App) : App :=
  if app.selected_history < app.history.length - 1 then
    { app with selected_history := app.selected_history + 1, history_detail_scroll := 0 }
  else app

def App.scroll_history_detail_up (app : App) : App :=
  { app with history_detail_scroll := app.history_detail_scroll - 1 }

def App.scroll_history_detail_down (app : App) : App :=
  { app with history_detail_scroll := u16SatAdd app.history_detail_scroll 1 }

/-! ## Input dispatcher (`src/tui/events.rs`) -/

/-- The key codes the dispatcher distinguishes; every other code behaves as `Other`. -/
inductive KeyCode where
  | Char (c : Char)
  | Up | Down | Left | Right | Enter | Esc | Backspace | Tab | PageUp | PageDown | Other
deriving DecidableEq

/-- A key event; of the modifiers only CONTROL is ever inspected. -/
structure KeyEvent where
  code : KeyCode
  ctrl : Bool
deriving DecidableEq

inductive EventResult where
  | Continue | ExecuteRequest | ExecuteHistoryEntry | Quit
deriving DecidableEq

/-- `for _ in 0..n { f }`: apply `f` n times. -/
def applyN : Nat → (App → App) → App → App
  | 0, _, app => app
  | n + 1, f, app => applyN n f (f app)

def handle_filter_keys (app : App) (key : KeyEvent) : App × EventResult :=
  if key.code = .Esc then (app.exit_filter_mode, .Continue)
  else if key.code = .Backspace then
    (if app.filter_text.isEmpty then app.exit_filter_mode else app.filter_backspace, .Continue)
  else if (key.code = .Up ∨ key.code = .Char 'k') ∧ key.ctrl then (app.select_previous, .Continue)
  else if (key.code = .Down ∨ key.code = .Char 'j') ∧ key.ctrl then (app.select_next, .Continue)
  else if key.code = .Up then (app.select_previous, .Continue)
  else if key.code = .Down then (app.select_next, .Continue)
  else if key.code = .Enter then (app, .ExecuteRequest)
  else match key.code with
    | .Char c => (app.filter_append_char c, .Continue)
    | _ => (app, .Continue)

def handle_request_list_keys (app : App) (key : KeyEvent) : App × EventResult :=
  if app.filter_active then handle_filter_keys app key
  else if key.code = .Up ∨ key.code = .Char 'k' then (app.select_previous, .Continue)
  else if key.code = .Down ∨ key.code = .Char 'j' then (app.select_next, .Continue)
  else if key.code = .Enter then (app, .ExecuteRequest)
  else if key.code = .Char '/' then (app.enter_filter_mode, .Continue)
  else (app, .Continue)

def handle_variables_keys (app : App) (key : KeyEvent) : App × EventResult :=
  if key.code = .Up ∨ key.code = .Char 'k' then (app.select_previous_variable, .Continue)
  else if key.code = .Down ∨ key.code = .Char 'j' then (app.select_next_variable, .Continue)
  else (app, .Continue)

def handle_response_keys (app : App) (key : KeyEvent) : App × EventResult :=
  if key.code = .Char 'h' ∨ key.code = .Right then (app.switch_to_headers_tab, .Continue)
  else if key.code = .Char 'b' ∨ key.code = .Left then (app.switch_to_body_tab, .Continue)
  else if key.code = .Up ∨ key.code = .Char 'k' then
    ((match app.response_tab with | .Body => app.scroll_up | .Headers => app.scroll_headers_up),
     .Continue)
  else if key.code = .Down ∨ key.code = .Char 'j' then
    ((match app.response_tab with | .Body => app.scroll_down | .Headers => app.scroll_headers_down),
     .Continue)
  else if key.code = .PageUp then
    (applyN 10 (fun a => match a.response_tab with
      | .Body => a.scroll_up | .Headers => a.scroll_headers_up) app, .Continue)
  else if key.code = .PageDown then
    (applyN 10 (fun a => match a.response_tab with
      | .Body => a.scroll_down | .Headers => a.scroll_headers_down) app, .Continue)
  else (app, .Continue)

def handle_request_details_keys (app : App) (key : KeyEvent) : App × EventResult :=
  if key.code = .Up ∨ key.code = .Char 'k' then (app.scroll_request_details_up, .Continue)
  else if key.code = .Down ∨ key.code = .Char 'j' then (app.scroll_request_details_down, .Continue)
  else if key.code = .PageUp then (applyN 10 App.scroll_request_details_up app, .Continue)
  else if key.code = .PageDown then (applyN 10 App.scroll_request_details_down app, .Continue)
  else (app, .Continue)

def handle_history_list_keys (app : App) (key : KeyEvent) : App × EventResult :=
  if key.code = .Up ∨ key.code = .Char 'k' then (app.select_previous_history, .Continue)
  else if key.code = .Down ∨ key.code = .Char 'j' then (app.select_next_history, .Continue)
  else if key.code = .Enter then (app, .ExecuteHistoryEntry)
  else (app, .Continue)

def handle_history_detail_keys (app : App) (key : KeyEvent) : App × EventResult :=
  if key.code = .Up ∨ key.code = .Char 'k' then (app.scroll_history_detail_up, .Continue)
  else if key.code = .Down ∨ key.code = .Char 'j' then (app.scroll_history_detail_down, .Continue)
  else if key.code = .PageUp then (applyN 10 App.scroll_history_detail_up app, .Continue)
  else if key.code = .PageDown then (applyN 10 App.scroll_history_detail_down app, .Continue)
  else (app, .Continue)

/-- `handle_key_event`: the global arms (`q`, Ctrl-c, `H`, Esc-in-history, Tab)
in source order, then the per-focus dispatch. -/
def handle_key_event (app : App) (key : KeyEvent) : App × EventResult :=
  if key.code = .Char 'q' then (app, .Quit)
  else if key.code = .Char 'c' ∧ key.ctrl then (app, .Quit)
  else if key.code = .Char 'H' ∧ ¬ app.filter_active then (app.toggle_history_view, .Continue)
  else if key.code = .Esc ∧ app.history_view_active then (app.toggle_history_view, .Continue)
  else if key.code = .Tab then
    (if app.history_view_active then
       { app with focus := match app.focus with
          | .HistoryList => .HistoryDetail
          | .HistoryDetail => .HistoryList
          | _ => .HistoryList }
     else app.toggle_focus, .Continue)
  else if app.history_view_active then
    match app.focus with
    | .HistoryList => handle_history_list_keys app key
    | .HistoryDetail => handle_history_detail_keys app key
    | _ => (app, .Continue)
  else
    match app.focus with
    | .RequestList => handle_request_list_keys app key
    | .ResponseBody => handle_response_keys app key
    | .RequestDetails => handle_request_details_keys app key
    | .VariablesList => handle_variables_keys app key
    | _ => (app, .Continue)

/-! ## Session loop fold (`src/tui/mod.rs`) and the transport boundary -/

/-- Modelled from the spec: the two-argument `Client::execute(request, variables)`
called by `execute_request` in `src/tui/mod.rs` is missing from the snapshot
(`src/client.rs` holds a one-argument, non-substituting version that does not
match its caller). Per the spec, the URL, each header value and the body are
substituted against the file's variable table before the transport is invoked;
the first substitution failure aborts with that error. -/
def substRequest (request : Request) (vars : VarTable) : Except VariableError Request := do
  let url ← substitute request.url vars
  let headers ← request.headers.mapM fun p => (substitute p.2 vars).map fun v => (p.1, v)
  let body ← match request.body with
    | some b => (substitute b vars).map some
    | none => pure none
  pure { request with url := url, headers := headers, body := body }

/-- Modelled from the spec: `Client::execute` substitutes the request and hands
it to the external transport; errors (from substitution or transport) carry
their human-readable message. -/
def clientExecute (request : Request) (vars : VarTable)
    (transport : Request → Except Str Response) : Except Str Response :=
  match substRequest request vars with
  | .error e => .error e.display
  | .ok r => transport r

/-- The synthetic error response built in `execute_request` on any failure:
status 0, reason "Error", no headers, body `"Error: <msg>"`, zero duration. -/
def errResponse (msg : Str) : Response :=
  { status := 0, status_text := "Error".toList, headers := []
    body := "Error: ".toList ++ msg, duration := 0 }

/-- `execute_request` from `src/tui/mod.rs` (the terminal redraw has no state
effect). The transport function and the timestamp stand for the external world. -/
def execute_request (app : App) (request : Request)
    (transport : Request → Except Str Response) (timestamp : Nat) : App :=
  let app := { app with loading := true, response_scroll := 0 }
  let app :=
    match clientExecute request app.http_file.vars transport with
    | .ok response =>
      let entry : HistoryEntry := { request := request, response := response
                                    timestamp := timestamp }
      { (app.add_history_entry entry) with last_response := some response }
    | .error e =>
      let error_response := errResponse e
      let entry : HistoryEntry := { request := request, response := error_response
                                    timestamp := timestamp }
      { (app.add_history_entry entry) with last_response := some error_response }
  let app := { app with loading := false }
  if app.history_view_active then { app with selected_history := app.history.length - 1 }
  else app

/-- One observable step of the session loop: a key event fed to the dispatcher,
or one completed execution (selected request or history entry) with its
transport outcome and capture timestamp. -/
inductive Step where
  | key (k : KeyEvent)
  | exec (request : Request) (transport : Request → Except Str Response) (timestamp : Nat)

def doStep (app : App) : Step → App
  | .key k => (handle_key_event app k).1
  | .exec request transport timestamp => execute_request app request transport timestamp

def runSteps (app : App) (steps : List Step) : App := steps.foldl doStep app

/-- The history entry a step records: none for a key event, the (possibly
synthetic-error) response entry for an execution. -/
def stepEntry (vars : VarTable) : Step → Option HistoryEntry
  | .key _ => none
  | .exec request transport timestamp =>
    some { request := request
           response := match clientExecute request vars transport with
             | .ok r => r
             | .error e => errResponse e
           timestamp := timestamp }

def Step.isExec : Step → Bool
  | .key _ => false
  | .exec _ _ _ => true

/-! ## Parser lemmas -/

lemma exists_ok_of_isOk {ε α : Type} {e : Except ε α} (h : e.isOk = true) :
    ∃ a, e = .ok a := by
  cases e with
  | ok a => exact ⟨a, rfl⟩
  | error _ => simp [Except.isOk, Except.toBool] at h

/-- Every line leaves the parser in a defined state (`.ok`): no branch of the
per-line state machine can fail. -/
lemma parseLine_isOk (st : ParserSt) (l : Str) : (parseLine st l).isOk = true := by
  simp only [parseLine]
  repeat' split
  all_goals rfl

/-- The effect of a line on the variable table is exactly the rule-1 test on
the trimmed line — performed before all other rules, so independent of the
request-building state. -/
lemma parseLine_vars (st : ParserSt) (l : Str) (st' : ParserSt)
    (h : parseLine st l = .ok st') :
    st'.vars = (match tryParseVariable (trimEnd l) with
                | some p => insertVar st.vars p.1 p.2
                | none => st.vars) := by
  simp only [parseLine] at h
  split at h
  · next p heq =>
    cases h
    simp [heq]
  · next heq =>
    rw [heq]
    split at h
    · split at h <;> · cases h; rfl
    · split at h
      · cases h; rfl
      · split at h
        · split at h <;> · cases h; rfl
        · split at h
          · split at h <;> · cases h; rfl
          · split at h
            · split at h <;> · cases h; rfl
            · cases h; rfl

/-- Every line leaves the parser in a defined state (`.ok`), and its effect on
the variable table is exactly the rule-1 test on the trimmed line, performed
before all other rules. -/
lemma parseLine_spec (st : ParserSt) (l : Str) :
    ∃ st', parseLine st l = .ok st' ∧
      st'.vars = (match tryParseVariable (trimEnd l) with
                  | some p => insertVar st.vars p.1 p.2
                  | none => st.vars) := by
  obtain ⟨st', h⟩ := exists_ok_of_isOk (parseLine_isOk st l)
  exact ⟨st', h, parseLine_vars st l st' h⟩

def insStep (m : VarTable) (p : Str × Str) : VarTable := insertVar m p.1 p.2

/-- The line loop always succeeds, and the final variable table is the fold of
rule-1 insertions over all lines, independent of the request-building state. -/
lemma foldlM_parseLine_spec (lines : List Str) : ∀ st : ParserSt,
    ∃ st', lines.foldlM parseLine st = .ok st' ∧
      st'.vars = ((lines.map trimEnd).filterMap tryParseVariable).foldl insStep st.vars := by
  induction lines with
  | nil => intro st; exact ⟨st, rfl, rfl⟩
  | cons l ls ih =>
    intro st
    obtain ⟨st₁, h₁, hv₁⟩ := parseLine_spec st l
    obtain ⟨st', h', hv'⟩ := ih st₁
    refine ⟨st', ?_, ?_⟩
    · simpa [List.foldlM_cons, h₁] using h'
    · rw [hv', hv₁]
      cases hv : tryParseVariable (trimEnd l) <;>
        simp [hv, List.filterMap_cons, insStep]

lemma lookupVar_nil (n : Str) : lookupVar [] n = none := rfl

lemma lookupVar_cons (q : Str × Str) (m : VarTable) (n : Str) :
    lookupVar (q :: m) n = if q.1 = n then some q.2 else lookupVar m n := by
  by_cases h : q.1 = n
  · rw [lookupVar, List.find?_cons_of_pos _ (by simpa using h), if_pos h]; rfl
  · rw [lookupVar, List.find?_cons_of_neg _ (by simpa using h), if_neg h]; rfl

lemma lookupVar_map_ne (m : VarTable) (k v n : Str) (hne : n ≠ k) :
    lookupVar (m.map (fun p => if p.1 == k then (k, v) else p)) n = lookupVar m n := by
  induction m with
  | nil => rfl
  | cons q m' ih =>
    rw [List.map_cons, lookupVar_cons, lookupVar_cons]
    by_cases hq : q.1 = k
    · rw [if_pos (show (q.1 == k) = true from by simpa using hq)]
      rw [if_neg (show ¬ ((k, v) : Str × Str).1 = n from fun h => hne h.symm)]
      rw [if_neg (show ¬ q.1 = n from by rw [hq]; exact fun h => hne h.symm)]
      exact ih
    · rw [if_neg (show ¬ (q.1 == k) = true from by simpa using hq)]
      by_cases hn : q.1 = n
      · rw [if_pos hn, if_pos hn]
      · rw [if_neg hn, if_neg hn]; exact ih

lemma lookupVar_map_hit (m : VarTable) (k v : Str)
    (h : m.any (fun p => p.1 == k) = true) :
    lookupVar (m.map (fun p => if p.1 == k then (k, v) else p)) k = some v := by
  induction m with
  | nil => simp at h
  | cons q m' ih =>
    rw [List.map_cons, lookupVar_cons]
    by_cases hq : q.1 = k
    · rw [if_pos (show (q.1 == k) = true from by simpa using hq)]
      simp
    · rw [if_neg (show ¬ (q.1 == k) = true from by simpa using hq), if_neg hq]
      apply ih
      simpa [List.any_cons, hq] using h

lemma lookupVar_insertVar (m : VarTable) (k v n : Str) :
    lookupVar (insertVar m k v) n = if n = k then some v else lookupVar m n := by
  by_cases hmem : m.any (fun p => p.1 == k) = true
  · rw [insertVar, if_pos hmem]
    by_cases hn : n = k
    · subst hn; rw [if_pos rfl]; exact lookupVar_map_hit m n v hmem
    · rw [if_neg hn]; exact lookupVar_map_ne m k v n hn
  · rw [insertVar, if_neg hmem]
    have hnone : m.find? (fun p => p.1 == k) = none := by
      rw [List.find?_eq_none]
      intro x hx hbeq
      exact hmem (List.any_of_mem hx hbeq)
    by_cases hn : n = k
    · subst hn
      rw [if_pos rfl]
      simp only [lookupVar, List.find?_append, hnone]
      simp [List.find?]
    · rw [if_neg hn]
      simp only [lookupVar, List.find?_append]
      cases hf : m.find? (fun p => p.1 == n) with
      | some q => simp [Option.or]
      | none =>
        simp [List.find?,
          show (((k, v) : Str × Str).1 == n) = false from by simpa using fun h => hn h.symm]

lemma lookupVar_foldl_insert (ps : List (Str × Str)) : ∀ m n,
    lookupVar (ps.foldl insStep m) n
      = match ps.reverse.find? (fun p => p.1 == n) with
        | some p => some p.2
        | none => lookupVar m n := by
  induction ps with
  | nil => intro m n; rfl
  | cons p ps' ih =>
    intro m n
    rw [List.foldl_cons, ih]
    rw [List.reverse_cons, List.find?_append]
    cases hf : ps'.reverse.find? (fun q => q.1 == n) with
    | some q => simp [Option.or]
    | none =>
      by_cases hn : p.1 = n
      · rw [List.find?_cons_of_pos _ (by simpa using hn)]
        simp only [Option.or, insStep, lookupVar_insertVar]
        rw [if_pos hn.symm]
      · rw [List.find?_cons_of_neg _ (by simpa using hn), List.find?_nil]
        simp only [Option.or, insStep, lookupVar_insertVar]
        rw [if_neg (show ¬ n = p.1 from fun h => hn h.symm)]

/-! ## Substitution lemmas -/

/-- The error behaviour of the substitution loop is determined by the capture
list alone: the accumulated result string never influences it. -/
lemma substLoop_spec (vars : VarTable) (caps : List Str) : ∀ res : Str,
    (match caps.find? (fun n => (lookupVar vars n).isNone) with
     | some n => substLoop vars caps res = .error (.undefinedVariable n)
     | none => ∃ out, substLoop vars caps res = .ok out) := by
  induction caps with
  | nil => intro res; exact ⟨res, rfl⟩
  | cons n caps' ih =>
    intro res
    cases hl : lookupVar vars n with
    | none =>
      rw [List.find?_cons_of_pos _ (by simp [hl])]
      simp [substLoop, hl]
    | some v =>
      rw [List.find?_cons_of_neg _ (by simp [hl])]
      have := ih (replaceAll res (tok n) v)
      cases hf : caps'.find? (fun m => (lookupVar vars m).isNone) with
      | some m =>
        rw [hf] at this
        simp [substLoop, hl, this]
      | none =>
        rw [hf] at this
        obtain ⟨out, hout⟩ := this
        exact ⟨out, by simp [substLoop, hl, hout]⟩

/-! ## Claim theorems -/

/-- **C5.** For every input text, `parse_content` returns successfully: parsing
fails only on I/O (which happens in `parse_file`, before `parse_content` runs),
never on malformed request syntax; malformed lines are silently skipped. -/
theorem parse_content_never_fails (content : Str) :
    ∃ r, parseContent content = .ok r := by
  obtain ⟨st, hst, -⟩ := foldlM_parseLine_spec (linesOf content) ParserSt.init
  unfold parseContent
  rw [hst]
  simp only [bind, Except.bind]
  cases hc : st.currentRequest with
  | some b => exact ⟨_, rfl⟩
  | none => exact ⟨_, rfl⟩

/-- **C3.** A line of the form `@name = value` (non-empty trimmed name) defines
or overwrites a file-scoped variable wherever it occurs — rule 1 runs on every
line, before request separators, comments, blank-line handling, request lines,
headers and body lines — and the final table maps each name to the value of the
**last** such assignment line in the file (later assignments win). -/
theorem parse_content_last_assignment_wins (content : Str) (n : Str)
    (result : List Request × VarTable) (h : parseContent content = .ok result) :
    lookupVar result.2 n
      = ((((linesOf content).map trimEnd).filterMap tryParseVariable).reverse.find?
          (fun p => p.1 == n)).map (·.2) := by
  obtain ⟨st, hst, hvars⟩ := foldlM_parseLine_spec (linesOf content) ParserSt.init
  have hres : result.2 = st.vars := by
    unfold parseContent at h
    rw [hst] at h
    simp only [bind, Except.bind] at h
    split at h
    · simp only [RequestBuilder.build] at h
      cases h; rfl
    · cases h; rfl
  rw [hres, hvars, lookupVar_foldl_insert]
  cases hf : (((linesOf content).map trimEnd).filterMap tryParseVariable).reverse.find?
      (fun p => p.1 == n) with
  | some p => rfl
  | none => rfl

/-- Witness for C3 at a concrete file: two assignments to `a`, one inside the
open request's header region; the last one wins. -/
theorem parse_content_last_assignment_wins_witness :
    ∃ result, parseContent "GET https://x\n@a = 1\n@a = 2".toList = .ok result ∧
      lookupVar result.2 "a".toList = some "2".toList := by
  refine ⟨_, rfl, ?_⟩
  rw [parse_content_last_assignment_wins "GET https://x\n@a = 1\n@a = 2".toList "a".toList _ rfl]
  decide

/-- **C4.** `substitute` fails exactly when some `{{identifier}}` token of the
input (identifier = one or more word characters; `scanTokens` lists them in
leftmost order) has no entry in the table, and the error names the first
(leftmost) such unbound token; with every token bound it succeeds. -/
theorem substitute_fails_iff_first_unbound_token (text : Str) (vars : VarTable) :
    ((substitute text vars).isOk = true ↔
      (scanTokens text).find? (fun n => (lookupVar vars n).isNone) = none)
  ∧ ∀ n, (substitute text vars = .error (.undefinedVariable n) ↔
      (scanTokens text).find? (fun m => (lookupVar vars m).isNone) = some n) := by
  have h := substLoop_spec vars (scanTokens text) text
  constructor
  · cases hf : (scanTokens text).find? (fun n => (lookupVar vars n).isNone) with
    | some m =>
      rw [hf] at h
      constructor
      · intro hok
        rw [substitute] at hok
        rw [h] at hok
        simp [Except.isOk, Except.toBool] at hok
      · intro hc; cases hc
    | none =>
      rw [hf] at h
      obtain ⟨out, hout⟩ := h
      constructor
      · intro _; rfl
      · intro _
        rw [substitute, hout]
        rfl
  · intro n
    cases hf : (scanTokens text).find? (fun m => (lookupVar vars m).isNone) with
    | some m =>
      rw [hf] at h
      constructor
      · intro herr
        rw [substitute, h] at herr
        cases herr
        rfl
      · intro hc
        cases hc
        exact h
    | none =>
      rw [hf] at h
      obtain ⟨out, hout⟩ := h
      constructor
      · intro herr
        rw [substitute, hout] at herr
        cases herr
      · intro hc; cases hc

lemma filtered_length_inactive (app : App) (h : app.filter_active = false) :
    app.filtered_requests.length = app.http_file.requests.length := by
  rw [App.filtered_requests, if_pos (by simp [h])]
  exact List.enum_length

/-- **C10.** `select_next` and `select_previous` touch only `selected`,
`selected_variable` and `request_details_scroll`: when the selection moves the
latter two are reset to 0; at the boundary (index 0 for previous, last visible
index for next) the state is unchanged; every other field is unchanged always. -/
theorem select_move_frame_conditions (app : App) :
    (app.select_next.http_file = app.http_file
      ∧ app.select_next.last_response = app.last_response
      ∧ app.select_next.should_quit = app.should_quit
      ∧ app.select_next.focus = app.focus
      ∧ app.select_next.response_scroll = app.response_scroll
      ∧ app.select_next.response_tab = app.response_tab
      ∧ app.select_next.headers_scroll = app.headers_scroll
      ∧ app.select_next.request_details_visible_height = app.request_details_visible_height
      ∧ app.select_next.loading = app.loading
      ∧ app.select_next.filter_text = app.filter_text
      ∧ app.select_next.filter_active = app.filter_active
      ∧ app.select_next.history = app.history
      ∧ app.select_next.history_view_active = app.history_view_active
      ∧ app.select_next.selected_history = app.selected_history
      ∧ app.select_next.history_detail_scroll = app.history_detail_scroll)
  ∧ (app.select_previous.http_file = app.http_file
      ∧ app.select_previous.last_response = app.last_response
      ∧ app.select_previous.should_quit = app.should_quit
      ∧ app.select_previous.focus = app.focus
      ∧ app.select_previous.response_scroll = app.response_scroll
      ∧ app.select_previous.response_tab = app.response_tab
      ∧ app.select_previous.headers_scroll = app.headers_scroll
      ∧ app.select_previous.request_details_visible_height = app.request_details_visible_height
      ∧ app.select_previous.loading = app.loading
      ∧ app.select_previous.filter_text = app.filter_text
      ∧ app.select_previous.filter_active = app.filter_active
      ∧ app.select_previous.history = app.history
      ∧ app.select_previous.history_view_active = app.history_view_active
      ∧ app.select_previous.selected_history = app.selected_history
      ∧ app.select_previous.history_detail_scroll = app.history_detail_scroll)
  ∧ (app.select_next.selected ≠ app.selected →
      app.select_next.selected_variable = 0 ∧ app.select_next.request_details_scroll = 0)
  ∧ (app.select_previous.selected ≠ app.selected →
      app.select_previous.selected_variable = 0 ∧ app.select_previous.request_details_scroll = 0)
  ∧ (app.selected = app.filtered_requests.length - 1 → app.select_next = app)
  ∧ (app.selected = 0 → app.select_previous = app) := by
  have hmax : (if app.filter_active then app.filtered_requests.length - 1
               else app.http_file.requests.length - 1) = app.filtered_requests.length - 1 := by
    cases hfa : app.filter_active with
    | true => rw [if_pos rfl]
    | false => rw [if_neg (by simp), filtered_length_inactive app hfa]
  have hnext : app.select_next = app ∨
      (app.select_next
          = { app with
              selected := app.selected + 1, selected_variable := 0, request_details_scroll := 0 }
        ∧ app.selected ≠ app.selected + 1) := by
    simp only [App.select_next]
    repeat' split
    all_goals first
      | exact .inl rfl
      | exact .inr ⟨rfl, by omega⟩
  have hprev : app.select_previous = app ∨
      (app.select_previous
          = { app with
              selected := app.selected - 1, selected_variable := 0, request_details_scroll := 0 }
        ∧ 0 < app.selected) := by
    simp only [App.select_previous]
    split
    · next hgt => exact .inr ⟨rfl, hgt⟩
    · exact .inl rfl
  refine ⟨?_, ?_, ?_, ?_, ?_, ?_⟩
  · rcases hnext with h | ⟨h, -⟩ <;> rw [h] <;> simp
  · rcases hprev with h | ⟨h, -⟩ <;> rw [h] <;> simp
  · rcases hnext with h | ⟨h, -⟩ <;> rw [h]
    · intro hne; exact absurd rfl hne
    · intro _; exact ⟨rfl, rfl⟩
  · rcases hprev with h | ⟨h, -⟩ <;> rw [h]
    · intro hne; exact absurd rfl hne
    · intro _; exact ⟨rfl, rfl⟩
  · intro hb
    simp only [App.select_next, hmax]
    rw [if_neg (by omega)]
  · intro hb
    simp only [App.select_previous]
    rw [if_neg (by omega)]

/-- A concrete two-request file used by several witnesses. -/
def reqA : Request :=
  { name := none, method := .get, url := "https://a".toList, headers := [], body := none }

def reqB : Request :=
  { name := some "bee".toList, method := .post, url := "https://b".toList
    headers := [("K".toList, "{{v}}".toList)], body := some "hello {{w}}".toList }

def fileAB : HttpFile :=
  { requests := [reqA, reqB], vars := [("v".toList, "1".toList), ("w".toList, "2".toList)] }

/-- Witness for C10 at a concrete state: with two requests and `selected = 0`,
`select_next` moves and resets the two secondary fields; with `selected = 0`,
`select_previous` leaves the state unchanged. -/
theorem select_move_frame_conditions_witness :
    ((App.new fileAB).select_next.selected_variable = 0
      ∧ (App.new fileAB).select_next.request_details_scroll = 0)
  ∧ (App.new fileAB).select_previous = App.new fileAB := by
  constructor
  · exact (select_move_frame_conditions _).2.2.1 (by decide)
  · exact (select_move_frame_conditions _).2.2.2.2.2 rfl

/-- A concrete state with the filter active in the request list (main view). -/
def appFilter : App := { App.new fileAB with filter_active := true }

/-- **C7 counterexample.** With the filter active in the request list, the
character key `q` does **not** append to the filter text: the global quit arm
of `handle_key_event` matches first, so the dispatcher returns `Quit` and the
state (in particular the filter text) is unchanged. -/
theorem filter_char_key_q_quits :
    (handle_key_event appFilter ⟨.Char 'q', false⟩).2 = .Quit
  ∧ (handle_key_event appFilter ⟨.Char 'q', false⟩).1.filter_text
      ≠ appFilter.filter_text ++ ['q']
  ∧ (handle_key_event appFilter ⟨.Char 'q', false⟩).1 = appFilter := by
  refine ⟨rfl, by decide, rfl⟩

/-- **C7 (amended).** While the filter is active in the request list (main
view), every character-key input appends that character to the filter text and
resets `selected` to 0 — except the keys claimed by earlier dispatcher arms:
`q` (quit), Ctrl-`c` (quit), and Ctrl-`k`/Ctrl-`j` (selection moves). -/
theorem filter_char_key_appends (app : App) (c : Char) (ctrl : Bool)
    (hf : app.filter_active = true) (hfo : app.focus = .RequestList)
    (hh : app.history_view_active = false) (hq : c ≠ 'q')
    (hc : ctrl = true → c ≠ 'c' ∧ c ≠ 'k' ∧ c ≠ 'j') :
    handle_key_event app ⟨.Char c, ctrl⟩
      = ({ app with filter_text := app.filter_text ++ [c], selected := 0 }, .Continue) := by
  cases ctrl with
  | false =>
    simp [handle_key_event, handle_request_list_keys, handle_filter_keys, hf, hfo, hh, hq,
      App.filter_append_char]
  | true =>
    obtain ⟨hc1, hc2, hc3⟩ := hc rfl
    simp [handle_key_event, handle_request_list_keys, handle_filter_keys, hf, hfo, hh, hq,
      hc1, hc2, hc3, App.filter_append_char]

/-- Witness for the amended C7: typing `x` with the filter active appends it. -/
theorem filter_char_key_appends_witness :
    handle_key_event appFilter ⟨.Char 'x', false⟩
      = ({ appFilter with filter_text := appFilter.filter_text ++ ['x'], selected := 0 },
         .Continue) :=
  filter_char_key_appends appFilter 'x' false rfl rfl rfl (by decide) (by intro h; cases h)

/-- **C1.** When the session loop executes a request (selected or from
history), URL, header values and body are substituted against the file's
variable table before the transport is invoked — if substitution fails the
result does not depend on the transport at all — and an undefined-variable
failure is recovered into the synthetic error response (status 0, "Error",
empty headers, body "Error: <msg>") which is appended to history and becomes
`last_response`, with `loading` back to false: the session continues, no crash. -/
theorem execute_request_recovers_substitution_failure (app : App) (request : Request)
    (ts : Nat) (e : VariableError)
    (h : substRequest request app.http_file.vars = .error e) :
    (∀ t1 t2, execute_request app request t1 ts = execute_request app request t2 ts)
  ∧ ∀ transport,
      (execute_request app request transport ts).history
        = app.history
            ++ [{ request := request, response := errResponse e.display, timestamp := ts }]
    ∧ (execute_request app request transport ts).last_response = some (errResponse e.display)
    ∧ (execute_request app request transport ts).loading = false := by
  have hce : ∀ t, clientExecute request app.http_file.vars t = .error e.display := by
    intro t
    simp [clientExecute, h]
  refine ⟨fun t1 t2 => ?_, fun transport => ?_⟩
  · simp only [execute_request, hce]
  · simp only [execute_request, hce, App.add_history_entry]
    refine ⟨?_, ?_, ?_⟩ <;> · split <;> rfl

/-- A request whose URL names an unbound variable, and a dummy success response. -/
def reqMissing : Request :=
  { name := none, method := .get, url := "{{missing}}".toList, headers := [], body := none }

def okResp : Response :=
  { status := 200, status_text := "OK".toList, headers := [], body := [], duration := 7 }

/-- Witness for C1: executing `GET {{missing}}` against `fileAB` (which defines
only `v` and `w`) yields the synthetic error response in history and
`last_response`, whatever the transport would have answered. -/
theorem execute_request_recovers_substitution_failure_witness :
    (execute_request (App.new fileAB) reqMissing (fun _ => .ok okResp) 5).history
      = (App.new fileAB).history
          ++ [{ request := reqMissing
                response := errResponse (VariableError.undefinedVariable "missing".toList).display
                timestamp := 5 }]
  ∧ (execute_request (App.new fileAB) reqMissing (fun _ => .ok okResp) 5).last_response
      = some (errResponse (VariableError.undefinedVariable "missing".toList).display)
  ∧ (execute_request (App.new fileAB) reqMissing (fun _ => .ok okResp) 5).loading = false :=
  (execute_request_recovers_substitution_failure (App.new fileAB) reqMissing 5
    (.undefinedVariable "missing".toList) (by decide)).2 (fun _ => .ok okResp)

/-! ## C9: history is append-only and chronological -/

/-- The session-level view a key event can never change: history, last
response, and the (immutable) request file. -/
def sessionView (a : App) : List HistoryEntry × Option Response × HttpFile :=
  (a.history, a.last_response, a.http_file)

lemma applyN_sessionView (f : App → App) (hf : ∀ a, sessionView (f a) = sessionView a) :
    ∀ (n : Nat) (a : App), sessionView (applyN n f a) = sessionView a := by
  intro n
  induction n with
  | zero => intro a; rfl
  | succ n ih => intro a; rw [applyN, ih, hf]

lemma sessionView_select_previous (a : App) : sessionView a.select_previous = sessionView a := by
  simp only [App.select_previous]; split <;> rfl

lemma sessionView_select_next (a : App) : sessionView a.select_next = sessionView a := by
  simp only [App.select_next]; repeat' split
  all_goals rfl

lemma sessionView_toggle_history_view (a : App) :
    sessionView a.toggle_history_view = sessionView a := by
  simp only [App.toggle_history_view]; repeat' split
  all_goals rfl

lemma sessionView_scroll_details_down (a : App) :
    sessionView a.scroll_request_details_down = sessionView a := by
  simp only [App.scroll_request_details_down]; repeat' split
  all_goals rfl

lemma sessionView_tab_up (a : App) :
    sessionView (match a.response_tab with
      | ResponseTab.Body => a.scroll_up
      | ResponseTab.Headers => a.scroll_headers_up) = sessionView a := by
  cases a.response_tab <;> rfl

lemma sessionView_tab_down (a : App) :
    sessionView (match a.response_tab with
      | ResponseTab.Body => a.scroll_down
      | ResponseTab.Headers => a.scroll_headers_down) = sessionView a := by
  cases a.response_tab <;> rfl

lemma sessionView_hfk (app : App) (key : KeyEvent) :
    sessionView (handle_filter_keys app key).1 = sessionView app := by
  unfold handle_filter_keys
  repeat' split
  all_goals first
    | rfl
    | exact sessionView_select_previous app
    | exact sessionView_select_next app

lemma sessionView_hrl (app : App) (key : KeyEvent) :
    sessionView (handle_request_list_keys app key).1 = sessionView app := by
  unfold handle_request_list_keys
  repeat' split
  all_goals first
    | rfl
    | exact sessionView_hfk app key
    | exact sessionView_select_previous app
    | exact sessionView_select_next app

lemma sessionView_hvk (app : App) (key : KeyEvent) :
    sessionView (handle_variables_keys app key).1 = sessionView app := by
  unfold handle_variables_keys
  repeat' split
  · simp only [App.select_previous_variable]; split <;> rfl
  · simp only [App.select_next_variable]; split <;> rfl
  · rfl

lemma sessionView_hrk (app : App) (key : KeyEvent) :
    sessionView (handle_response_keys app key).1 = sessionView app := by
  unfold handle_response_keys
  repeat' split
  · rfl
  · rfl
  · rfl
  · rfl
  · rfl
  · rfl
  · exact applyN_sessionView _ sessionView_tab_up 10 app
  · exact applyN_sessionView _ sessionView_tab_down 10 app
  · rfl

set_option maxHeartbeats 1600000 in
lemma sessionView_hdk (app : App) (key : KeyEvent) :
    sessionView (handle_request_details_keys app key).1 = sessionView app := by
  unfold handle_request_details_keys
  repeat' split
  · rfl
  · exact sessionView_scroll_details_down app
  · exact applyN_sessionView App.scroll_request_details_up (fun a => rfl) 10 app
  · dsimp only
    exact applyN_sessionView App.scroll_request_details_down sessionView_scroll_details_down 10 app
  · rfl

lemma sessionView_hhl (app : App) (key : KeyEvent) :
    sessionView (handle_history_list_keys app key).1 = sessionView app := by
  unfold handle_history_list_keys
  repeat' split
  · simp only [App.select_previous_history]; split <;> rfl
  · simp only [App.select_next_history]; split <;> rfl
  · rfl
  · rfl

set_option maxHeartbeats 1600000 in
lemma sessionView_hhd (app : App) (key : KeyEvent) :
    sessionView (handle_history_detail_keys app key).1 = sessionView app := by
  unfold handle_history_detail_keys
  repeat' split
  · rfl
  · rfl
  · exact applyN_sessionView App.scroll_history_detail_up (fun a => rfl) 10 app
  · exact applyN_sessionView App.scroll_history_detail_down (fun a => rfl) 10 app
  · rfl

/-- A key event never changes history, last_response, or the request file. -/
lemma handle_key_event_sessionView (app : App) (key : KeyEvent) :
    sessionView (handle_key_event app key).1 = sessionView app := by
  unfold handle_key_event
  repeat' split
  · rfl
  · rfl
  · exact sessionView_toggle_history_view app
  · exact sessionView_toggle_history_view app
  · rfl
  · rfl
  · rfl
  · rfl
  · exact sessionView_hhl app key
  · exact sessionView_hhd app key
  · rfl
  · exact sessionView_hrl app key
  · exact sessionView_hrk app key
  · exact sessionView_hdk app key
  · exact sessionView_hvk app key
  · rfl

/-- The response available after an execution completes: the transport's
answer, or the synthetic error response on any failure. -/
def foldResponse (vars : VarTable) (request : Request)
    (transport : Request → Except Str Response) : Response :=
  match clientExecute request vars transport with
  | .ok r => r
  | .error e => errResponse e

/-- One execution appends exactly its entry and publishes its response. -/
lemma execute_request_history (app : App) (request : Request)
    (transport : Request → Except Str Response) (ts : Nat) :
    (execute_request app request transport ts).history
        = app.history ++ [⟨request, foldResponse app.http_file.vars request transport, ts⟩]
  ∧ (execute_request app request transport ts).last_response
        = some (foldResponse app.http_file.vars request transport)
  ∧ (execute_request app request transport ts).http_file = app.http_file := by
  unfold foldResponse
  cases hce : clientExecute request app.http_file.vars transport with
  | ok r =>
    simp only [execute_request, hce, App.add_history_entry]
    refine ⟨?_, ?_, ?_⟩ <;> · split <;> rfl
  | error e =>
    simp only [execute_request, hce, App.add_history_entry]
    refine ⟨?_, ?_, ?_⟩ <;> · split <;> rfl

lemma getLast?_cons_or {α : Type} (a : α) (l : List α) :
    (a :: l).getLast? = match l.getLast? with | some e => some e | none => some a := by
  induction l generalizing a with
  | nil => rfl
  | cons b l' ih =>
    rw [List.getLast?_cons_cons, ih b]
    cases hl : l'.getLast? with
    | some e => rfl
    | none => rfl

lemma filterMap_stepEntry_length (vars : VarTable) (steps : List Step) :
    (steps.filterMap (stepEntry vars)).length = steps.countP Step.isExec := by
  induction steps with
  | nil => rfl
  | cons stp steps ih =>
    cases stp <;>
      simp [stepEntry, List.filterMap_cons, Step.isExec, List.countP_cons, ih]

lemma runSteps_invariant (steps : List Step) : ∀ app : App,
    (runSteps app steps).history = app.history ++ steps.filterMap (stepEntry app.http_file.vars)
  ∧ (runSteps app steps).http_file = app.http_file
  ∧ (runSteps app steps).last_response
      = match (steps.filterMap (stepEntry app.http_file.vars)).getLast? with
        | some e => some e.response
        | none => app.last_response := by
  induction steps with
  | nil => intro app; exact ⟨(List.append_nil _).symm, rfl, rfl⟩
  | cons stp steps ih =>
    intro app
    cases stp with
    | key k =>
      have hk := handle_key_event_sessionView app k
      have h1 : (handle_key_event app k).1.history = app.history := congrArg Prod.fst hk
      have h2 : (handle_key_event app k).1.last_response = app.last_response :=
        congrArg (fun p => p.2.1) hk
      have h3 : (handle_key_event app k).1.http_file = app.http_file :=
        congrArg (fun p => p.2.2) hk
      obtain ⟨ih1, ih2, ih3⟩ := ih (handle_key_event app k).1
      have hstep : runSteps app (Step.key k :: steps)
          = runSteps (handle_key_event app k).1 steps := rfl
      refine ⟨?_, ?_, ?_⟩
      · rw [hstep, ih1, h1, h3, List.filterMap_cons]
        simp [stepEntry]
      · rw [hstep, ih2, h3]
      · rw [hstep, ih3, h2, h3, List.filterMap_cons]
        simp [stepEntry]
    | exec request transport ts =>
      obtain ⟨e1, e2, e3⟩ := execute_request_history app request transport ts
      obtain ⟨ih1, ih2, ih3⟩ := ih (execute_request app request transport ts)
      have hstep : runSteps app (Step.exec request transport ts :: steps)
          = runSteps (execute_request app request transport ts) steps := rfl
      have hentry : stepEntry app.http_file.vars (Step.exec request transport ts)
          = some ⟨request, foldResponse app.http_file.vars request transport, ts⟩ := by
        simp [stepEntry, foldResponse]
      refine ⟨?_, ?_, ?_⟩
      · rw [hstep, ih1, e1, e3, List.filterMap_cons, hentry]
        simp
      · rw [hstep, ih2, e3]
      · rw [hstep, ih3, e3, List.filterMap_cons, hentry]
        rw [getLast?_cons_or]
        cases hl : (steps.filterMap (stepEntry app.http_file.vars)).getLast? with
        | some e => rfl
        | none => simp [e2]

/-- **C9.** Starting from a fresh session, after any interleaving of key events
and M completed executions (successes and failures alike) the history holds
exactly the M execution entries, in chronological order — each appended once,
never reordered, pruned or mutated — and `last_response` is the response of the
most recent execution (none before the first). -/
theorem history_append_only_chronological (file : HttpFile) (steps : List Step) :
    (runSteps (App.new file) steps).history = steps.filterMap (stepEntry file.vars)
  ∧ (steps.filterMap (stepEntry file.vars)).length = steps.countP Step.isExec
  ∧ (runSteps (App.new file) steps).last_response
      = ((steps.filterMap (stepEntry file.vars)).getLast?).map (·.response) := by
  obtain ⟨h1, -, h3⟩ := runSteps_invariant steps (App.new file)
  have hfile : (App.new file).http_file = file := rfl
  rw [hfile] at h1 h3
  refine ⟨by simpa using h1, filterMap_stepEntry_length file.vars steps, ?_⟩
  rw [h3]
  cases hl : (steps.filterMap (stepEntry file.vars)).getLast? with
  | some e => rfl
  | none => rfl

/-! ## C8: the variables panel lists exactly the referenced, defined names -/

/-- The `{{name}}` tokens a request references, in the scan order of
`get_used_variables`: URL, then header values (map iteration order), then body. -/
def referenced_names (request : Request) : List Str :=
  scanTokens request.url
    ++ (request.headers.map (fun p => scanTokens p.2)).flatten
    ++ (match request.body with | some body => scanTokens body | none => [])

/-- Keep the first occurrence of each element (specification-style recursion). -/
def dedupFirst : List Str → List Str
  | [] => []
  | x :: xs => x :: dedupFirst (xs.filter (fun y => y ≠ x))
termination_by l => l.length
decreasing_by simp only [List.length_cons]; exact Nat.lt_succ_of_le (List.length_filter_le _ _)

lemma dedupFirst_nil : dedupFirst [] = [] := by rw [dedupFirst]

lemma dedupFirst_cons (x : Str) (xs : List Str) :
    dedupFirst (x :: xs) = x :: dedupFirst (xs.filter (fun y => y ≠ x)) := by
  rw [dedupFirst]

lemma dedupSeen_eq_dedupFirst_filter (l : List Str) : ∀ seen : List Str,
    dedupSeen seen l = dedupFirst (l.filter (fun x => x ∉ seen)) := by
  induction l with
  | nil => intro seen; rw [List.filter_nil, dedupFirst_nil]; rfl
  | cons x xs ih =>
    intro seen
    by_cases hx : x ∈ seen
    · rw [dedupSeen, if_pos hx, List.filter_cons_of_neg (by simpa using hx), ih]
    · rw [dedupSeen, if_neg hx, List.filter_cons_of_pos (by simpa using hx), dedupFirst_cons,
        ih (x :: seen), List.filter_filter]
      congr 2
      apply List.filter_congr
      intro y _
      by_cases hyx : y = x
      · simp [hyx]
      · by_cases hys : y ∈ seen
        · simp [hyx, hys, List.mem_cons]
        · simp [hyx, hys, List.mem_cons]

lemma dedupSeen_nil_eq_dedupFirst (l : List Str) : dedupSeen [] l = dedupFirst l := by
  rw [dedupSeen_eq_dedupFirst_filter l []]
  congr 1
  simp

lemma mem_dedupFirst (l : List Str) : ∀ n, n ∈ dedupFirst l ↔ n ∈ l := by
  induction l using dedupFirst.induct with
  | case1 => intro n; rw [dedupFirst_nil]
  | case2 x xs ih =>
    intro n
    rw [dedupFirst_cons, List.mem_cons, List.mem_cons, ih n]
    by_cases hnx : n = x
    · simp [hnx]
    · simp [hnx, List.mem_filter]

lemma nodup_dedupFirst (l : List Str) : (dedupFirst l).Nodup := by
  induction l using dedupFirst.induct with
  | case1 => rw [dedupFirst_nil]; exact List.nodup_nil
  | case2 x xs ih =>
    rw [dedupFirst_cons]
    refine List.Nodup.cons ?_ ih
    intro hmem
    have := (mem_dedupFirst _ x).mp hmem
    rw [List.mem_filter] at this
    simpa using this.2

lemma map_fst_filterMap_lookup (m : VarTable) (l : List Str) :
    (l.filterMap (fun n => (lookupVar m n).map (fun v => (n, v)))).map (·.1)
      = l.filter (fun n => (lookupVar m n).isSome) := by
  induction l with
  | nil => rfl
  | cons x xs ih =>
    rw [List.filterMap_cons]
    cases hx : lookupVar m x with
    | none => rw [List.filter_cons_of_neg (by simp [hx])]; simpa using ih
    | some v =>
      rw [List.filter_cons_of_pos (by simp [hx])]
      simpa using ih

/-- **C8.** For every selected request, `get_used_variables` lists exactly the
variable names referenced as `{{name}}` tokens in the request's URL, header
values and body — deduplicated by first occurrence, restricted to names present
in the file's variable table, in first-seen order (paired with their values). -/
theorem get_used_variables_spec (app : App) (request : Request)
    (h : app.selected_request = some request) :
    app.get_used_variables
      = (dedupFirst (referenced_names request)).filterMap
          (fun n => (lookupVar app.http_file.vars n).map (fun v => (n, v)))
  ∧ (app.get_used_variables.map (·.1)).Nodup
  ∧ ∀ n, n ∈ app.get_used_variables.map (·.1)
      ↔ (n ∈ referenced_names request ∧ (lookupVar app.http_file.vars n).isSome = true) := by
  have h1 : app.get_used_variables
      = (dedupFirst (referenced_names request)).filterMap
          (fun n => (lookupVar app.http_file.vars n).map (fun v => (n, v))) := by
    unfold App.get_used_variables
    rw [h]
    dsimp only
    rw [dedupSeen_nil_eq_dedupFirst]
    rfl
  refine ⟨h1, ?_, ?_⟩
  · rw [h1, map_fst_filterMap_lookup]
    exact (nodup_dedupFirst _).filter _
  · intro n
    rw [h1, map_fst_filterMap_lookup, List.mem_filter, mem_dedupFirst]

/-- A concrete state with the second request of `fileAB` selected. -/
def appSel1 : App := { App.new fileAB with selected := 1 }

/-- Witness for C8: the selected request of a concrete state references `v`
(header) and `w` (body); both are in the table, so both are listed. -/
theorem get_used_variables_spec_witness :
    appSel1.get_used_variables
      = (dedupFirst (referenced_names reqB)).filterMap
          (fun n => (lookupVar appSel1.http_file.vars n).map (fun v => (n, v)))
  ∧ (appSel1.get_used_variables.map (·.1)).Nodup
  ∧ ∀ n, n ∈ appSel1.get_used_variables.map (·.1)
      ↔ (n ∈ referenced_names reqB
          ∧ (lookupVar appSel1.http_file.vars n).isSome = true) :=
  get_used_variables_spec appSel1 reqB (by decide)

/-! ## C6: the selection invariant -/

/-- The selection invariant of the spec: `selected` indexes the currently
visible (filtered) list when that list is nonempty, and is 0 otherwise. -/
def SelInv (app : App) : Prop :=
  (0 < app.filtered_requests.length → app.selected < app.filtered_requests.length)
  ∧ (app.filtered_requests.length = 0 → app.selected = 0)

instance (app : App) : Decidable (SelInv app) := by unfold SelInv; infer_instance

/-- The fields the visible list and the invariant depend on. -/
def selView (a : App) : Nat × Bool × Str × HttpFile :=
  (a.selected, a.filter_active, a.filter_text, a.http_file)

lemma filtered_requests_congr (a b : App) (h1 : a.filter_active = b.filter_active)
    (h2 : a.filter_text = b.filter_text) (h3 : a.http_file = b.http_file) :
    a.filtered_requests = b.filtered_requests := by
  unfold App.filtered_requests
  rw [h1, h2, h3]

lemma SelInv_of_selView (a b : App) (h : selView a = selView b) : SelInv b → SelInv a := by
  have h1 : a.selected = b.selected := congrArg (fun p => p.1) h
  have h2 : a.filter_active = b.filter_active := congrArg (fun p => p.2.1) h
  have h3 : a.filter_text = b.filter_text := congrArg (fun p => p.2.2.1) h
  have h4 : a.http_file = b.http_file := congrArg (fun p => p.2.2.2) h
  unfold SelInv
  rw [filtered_requests_congr a b h2 h3 h4, h1]
  exact id

lemma SelInv_zero (a : App) (h : a.selected = 0) : SelInv a :=
  ⟨fun _ => by omega, fun _ => h⟩

lemma SelInv_select_next (app : App) (h : SelInv app) : SelInv app.select_next := by
  have hmax : (if app.filter_active then app.filtered_requests.length - 1
               else app.http_file.requests.length - 1) = app.filtered_requests.length - 1 := by
    cases hfa : app.filter_active with
    | true => rw [if_pos rfl]
    | false => rw [if_neg (by simp), filtered_length_inactive app hfa]
  simp only [App.select_next, hmax]
  split
  · next hlt =>
    show (0 < app.filtered_requests.length → app.selected + 1 < app.filtered_requests.length)
      ∧ (app.filtered_requests.length = 0 → app.selected + 1 = 0)
    exact ⟨fun _ => by omega, fun _ => by omega⟩
  · exact h

lemma SelInv_select_previous (app : App) (h : SelInv app) : SelInv app.select_previous := by
  simp only [App.select_previous]
  split
  · next hgt =>
    obtain ⟨ha, hb⟩ := h
    show (0 < app.filtered_requests.length → app.selected - 1 < app.filtered_requests.length)
      ∧ (app.filtered_requests.length = 0 → app.selected - 1 = 0)
    exact ⟨fun h0 => by have := ha h0; omega, fun h0 => by have := hb h0; omega⟩
  · exact h

lemma SelInv_hfk (app : App) (key : KeyEvent) (h : SelInv app) :
    SelInv (handle_filter_keys app key).1 := by
  unfold handle_filter_keys
  repeat' split
  all_goals first
    | exact SelInv_zero _ rfl
    | exact SelInv_select_previous app h
    | exact SelInv_select_next app h
    | exact h

lemma SelInv_hrl (app : App) (key : KeyEvent) (h : SelInv app) :
    SelInv (handle_request_list_keys app key).1 := by
  unfold handle_request_list_keys
  repeat' split
  all_goals first
    | exact SelInv_hfk app key h
    | exact SelInv_zero _ rfl
    | exact SelInv_select_previous app h
    | exact SelInv_select_next app h
    | exact h

lemma selView_hvk (app : App) (key : KeyEvent) :
    selView (handle_variables_keys app key).1 = selView app := by
  unfold handle_variables_keys
  repeat' split
  · simp only [App.select_previous_variable]; split <;> rfl
  · simp only [App.select_next_variable]; split <;> rfl
  · rfl

lemma selView_scroll_details_down (a : App) :
    selView a.scroll_request_details_down = selView a := by
  simp only [App.scroll_request_details_down]; repeat' split
  all_goals rfl

lemma applyN_selView (f : App → App) (hf : ∀ a, selView (f a) = selView a) :
    ∀ (n : Nat) (a : App), selView (applyN n f a) = selView a := by
  intro n
  induction n with
  | zero => intro a; rfl
  | succ n ih => intro a; rw [applyN, ih, hf]

lemma selView_tab_up (a : App) :
    selView (match a.response_tab with
      | ResponseTab.Body => a.scroll_up
      | ResponseTab.Headers => a.scroll_headers_up) = selView a := by
  cases a.response_tab <;> rfl

lemma selView_tab_down (a : App) :
    selView (match a.response_tab with
      | ResponseTab.Body => a.scroll_down
      | ResponseTab.Headers => a.scroll_headers_down) = selView a := by
  cases a.response_tab <;> rfl

lemma selView_hrk (app : App) (key : KeyEvent) :
    selView (handle_response_keys app key).1 = selView app := by
  unfold handle_response_keys
  repeat' split
  · rfl
  · rfl
  · rfl
  · rfl
  · rfl
  · rfl
  · exact applyN_selView _ selView_tab_up 10 app
  · exact applyN_selView _ selView_tab_down 10 app
  · rfl

lemma selView_hdk (app : App) (key : KeyEvent) :
    selView (handle_request_details_keys app key).1 = selView app := by
  unfold handle_request_details_keys
  repeat' split
  · rfl
  · exact selView_scroll_details_down app
  · exact applyN_selView App.scroll_request_details_up (fun a => rfl) 10 app
  · dsimp only
    exact applyN_selView App.scroll_request_details_down selView_scroll_details_down 10 app
  · rfl

lemma selView_hhl (app : App) (key : KeyEvent) :
    selView (handle_history_list_keys app key).1 = selView app := by
  unfold handle_history_list_keys
  repeat' split
  · simp only [App.select_previous_history]; split <;> rfl
  · simp only [App.select_next_history]; split <;> rfl
  · rfl
  · rfl

lemma selView_hhd (app : App) (key : KeyEvent) :
    selView (handle_history_detail_keys app key).1 = selView app := by
  unfold handle_history_detail_keys
  repeat' split
  · rfl
  · rfl
  · exact applyN_selView App.scroll_history_detail_up (fun a => rfl) 10 app
  · exact applyN_selView App.scroll_history_detail_down (fun a => rfl) 10 app
  · rfl

lemma selView_toggle_history_view (a : App) :
    selView a.toggle_history_view = selView a := by
  simp only [App.toggle_history_view]; repeat' split
  all_goals rfl

/-- **C6.** Every dispatcher operation preserves the selection invariant
(`0 ≤ selected < visible_count` when `visible_count > 0`, else `selected = 0`);
in particular `select_next`/`select_previous` keep `selected` in range, and
activating the filter or changing the filter text always resets `selected` to 0. -/
theorem dispatcher_preserves_selection_invariant (app : App) (key : KeyEvent) (c : Char) :
    (SelInv app →
      SelInv (handle_key_event app key).1 ∧ SelInv app.select_next ∧ SelInv app.select_previous)
  ∧ (app.enter_filter_mode).selected = 0
  ∧ (app.filter_append_char c).selected = 0
  ∧ (app.filter_backspace).selected = 0
  ∧ (app.exit_filter_mode).selected = 0 := by
  refine ⟨fun h => ⟨?_, SelInv_select_next app h, SelInv_select_previous app h⟩,
    rfl, rfl, rfl, rfl⟩
  unfold handle_key_event
  repeat' split
  · exact h
  · exact h
  · exact SelInv_of_selView _ app (selView_toggle_history_view app) h
  · exact SelInv_of_selView _ app (selView_toggle_history_view app) h
  · exact SelInv_of_selView _ app rfl h
  · exact SelInv_of_selView _ app rfl h
  · exact SelInv_of_selView _ app rfl h
  · exact SelInv_of_selView _ app rfl h
  · exact SelInv_of_selView _ app (selView_hhl app key) h
  · exact SelInv_of_selView _ app (selView_hhd app key) h
  · exact h
  · exact SelInv_hrl app key h
  · exact SelInv_of_selView _ app (selView_hrk app key) h
  · exact SelInv_of_selView _ app (selView_hdk app key) h
  · exact SelInv_of_selView _ app (selView_hvk app key) h
  · exact h

/-- Witness for C6: the fresh two-request state satisfies the invariant, and a
Down key preserves it. -/
theorem dispatcher_preserves_selection_invariant_witness :
    SelInv (handle_key_event (App.new fileAB) ⟨.Down, false⟩).1
  ∧ SelInv (App.new fileAB).select_next
  ∧ SelInv (App.new fileAB).select_previous :=
  (dispatcher_preserves_selection_invariant (App.new fileAB) ⟨.Down, false⟩ 'x').1 (by decide)

/-! ## C2: substituted values are not re-scanned — with one caveat -/

lemma tok_ne_nil (n : Str) : tok n ≠ [] := by simp [tok]

lemma goRepl_skip (pat repl : Str) (l : Str) :
    ∀ s, goRepl pat repl (l ++ s) l.length = goRepl pat repl s 0 := by
  induction l with
  | nil => intro s; rfl
  | cons c l ih => intro s; exact ih s

lemma goRepl_match (pat repl s₂ : Str) (hne : pat ≠ []) :
    goRepl pat repl (pat ++ s₂) 0 = repl ++ goRepl pat repl s₂ 0 := by
  cases pat with
  | nil => exact absurd rfl hne
  | cons c pat' =>
    have hpre : (c :: pat').isPrefixOf (c :: (pat' ++ s₂)) = true := by
      rw [List.isPrefixOf_iff_prefix]
      exact List.prefix_append _ _
    show goRepl (c :: pat') repl (c :: (pat' ++ s₂)) 0 = _
    rw [goRepl, if_pos hpre]
    congr 1
    show goRepl (c :: pat') repl (pat' ++ s₂) pat'.length = _
    exact goRepl_skip (c :: pat') repl pat' s₂

lemma goRepl_no_match (pat repl : Str) (c : Char) (s : Str)
    (h : ¬ pat.isPrefixOf (c :: s) = true) :
    goRepl pat repl (c :: s) 0 = c :: goRepl pat repl s 0 := by
  rw [goRepl, if_neg h]

lemma goRepl_copy (pat repl : Str) (p : Str) :
    ∀ r, (∀ j, j < p.length → ¬ pat <+: (p.drop j ++ r)) →
    goRepl pat repl (p ++ r) 0 = p ++ goRepl pat repl r 0 := by
  induction p with
  | nil => intro r _; rfl
  | cons c p ih =>
    intro r hj
    have h0 : ¬ pat.isPrefixOf (c :: (p ++ r)) = true := by
      rw [List.isPrefixOf_iff_prefix]
      simpa using hj 0 (by simp)
    rw [List.cons_append, goRepl_no_match pat repl c (p ++ r) h0,
      ih r (fun j hjlt => by simpa using hj (j + 1) (by simpa using Nat.succ_lt_succ hjlt)),
      List.cons_append]

/-- Two different word-named tokens can never overlap: in particular `tok t`
cannot start strictly inside `tok w` (or at its start when `t ≠ w`), however
the text continues afterwards. -/
lemma tok_eq_of_words_prefix : ∀ (t w a b : Str),
    (∀ c ∈ t, isWordChar c = true) → (∀ c ∈ w, isWordChar c = true) →
    (t ++ '}' :: '}' :: a) <+: (w ++ '}' :: '}' :: b) → t = w := by
  intro t
  induction t with
  | nil =>
    intro w a b _ hw hpre
    cases w with
    | nil => rfl
    | cons d w' =>
      rw [List.nil_append, List.cons_append, List.cons_prefix_cons] at hpre
      have : isWordChar '}' = true := hpre.1 ▸ hw d (by simp)
      simp [isWordChar] at this
  | cons c t' ih =>
    intro w a b ht hw hpre
    cases w with
    | nil =>
      rw [List.cons_append, List.nil_append, List.cons_prefix_cons] at hpre
      have : isWordChar '}' = true := hpre.1 ▸ ht c (by simp)
      simp [isWordChar] at this
    | cons d w' =>
      rw [List.cons_append, List.cons_append, List.cons_prefix_cons] at hpre
      rw [hpre.1, ih w' a b (fun x hx => ht x (by simp [hx])) (fun x hx => hw x (by simp [hx]))
        hpre.2]

lemma head_eq_of_prefix {a : Char} {l₁ l₂ : Str} (h : (a :: l₁) <+: l₂) :
    ∃ l₃, l₂ = a :: l₃ := by
  obtain ⟨t, ht⟩ := h
  exact ⟨l₁ ++ t, by rw [← ht]; simp⟩

/-- `tok t` is not a prefix of any proper tail of `tok w` continued by
anything — nor of `tok w ++ r` itself when `t ≠ w`. -/
lemma tok_no_overlap (t w : Str) (ht : WordStr t) (hw : WordStr w) (hne : t ≠ w) :
    ∀ j r, j < (tok w).length → ¬ (tok t <+: ((tok w).drop j ++ r)) := by
  intro j r hj hpre
  obtain ⟨htne, htw⟩ := ht
  obtain ⟨hwne, hww⟩ := hw
  match j with
  | 0 =>
    apply hne
    rw [List.drop_zero] at hpre
    have : (t ++ '}' :: '}' :: []) <+: (w ++ '}' :: '}' :: r) := by
      have h2 : ('{' :: '{' :: (t ++ ['}', '}'])) <+: ('{' :: '{' :: (w ++ ['}', '}'] ++ r)) := by
        simpa [tok] using hpre
      rw [List.cons_prefix_cons] at h2
      rw [List.cons_prefix_cons] at h2
      simpa using h2.2.2
    exact tok_eq_of_words_prefix t w [] r htw hww this
  | 1 =>
    have : (tok w).drop 1 ++ r = '{' :: (w ++ ['}', '}'] ++ r) := by simp [tok]
    rw [this] at hpre
    have h2 : ('{' :: (t ++ ['}', '}'])) <+: (w ++ ['}', '}'] ++ r) := by
      have := hpre
      rw [show tok t = '{' :: '{' :: (t ++ ['}', '}']) from rfl, List.cons_prefix_cons] at this
      exact this.2
    obtain ⟨l₃, hl₃⟩ := head_eq_of_prefix h2
    cases w with
    | nil => exact absurd rfl hwne
    | cons d w' =>
      have hdc : d = '{' := by
        simpa using congrArg (fun l => l.head?) hl₃
      have hd : isWordChar '{' = true := hdc ▸ hww d (by simp)
      simp [isWordChar] at hd
  | (i + 2) =>
    have hdrop : (tok w).drop (i + 2) = (w ++ ['}', '}']).drop i := by simp [tok]
    rw [hdrop] at hpre
    have hlen : i < w.length + 2 := by
      have : (tok w).length = w.length + 4 := by simp [tok]
      omega
    obtain ⟨l₃, hl₃⟩ := head_eq_of_prefix
      (show ('{' :: ('{' :: (t ++ ['}', '}']))) <+: ((w ++ ['}', '}']).drop i ++ r) from hpre)
    rcases Nat.lt_or_ge i w.length with hi | hi
    · have hsplit : (w ++ ['}', '}']).drop i = w.drop i ++ ['}', '}'] :=
        List.drop_append_of_le_length (Nat.le_of_lt hi)
      rw [hsplit] at hl₃
      cases hcd : w.drop i with
      | nil =>
        have : w.length ≤ i := List.drop_eq_nil_iff.mp hcd
        omega
      | cons d rest =>
        rw [hcd] at hl₃
        have hdw : d ∈ w := List.drop_subset i w (by rw [hcd]; simp)
        have hdc : d = '{' := by
          simpa using congrArg (fun l => l.head?) hl₃
        have hd : isWordChar '{' = true := hdc ▸ hww d hdw
        simp [isWordChar] at hd
    · have hsplit : (w ++ ['}', '}']).drop i = (['}', '}'] : Str).drop (i - w.length) := by
        rw [List.drop_append_eq_append_drop]
        rw [List.drop_eq_nil_of_le hi, List.nil_append]
      rw [hsplit] at hl₃
      match hiw : i - w.length with
      | 0 =>
        rw [hiw] at hl₃
        have : ('}' : Char) = '{' := by simpa using congrArg (fun l => l.head?) hl₃
        exact absurd this (by decide)
      | 1 =>
        rw [hiw] at hl₃
        have : ('}' : Char) = '{' := by simpa using congrArg (fun l => l.head?) hl₃
        exact absurd this (by decide)
      | (k + 2) => omega

lemma infix_cons {l s : Str} (c : Char) (h : l <:+: s) : l <:+: c :: s := by
  obtain ⟨u, r, hur⟩ := h
  exact ⟨c :: u, r, by rw [← hur]; simp⟩

lemma infix_append_left {l s : Str} (v : Str) (h : l <:+: s) : l <:+: v ++ s := by
  obtain ⟨u, r, hur⟩ := h
  exact ⟨v ++ u, r, by rw [← hur]; simp⟩

/-- A replacement pass for the token of `t` preserves any occurrence of the
token of a different word `w` (tokens of distinct words never overlap). -/
lemma goRepl_preserves (t w v : Str) (ht : WordStr t) (hw : WordStr w) (hne : t ≠ w) :
    ∀ (n : Nat) (s : Str), s.length ≤ n → tok w <:+: s →
      tok w <:+: goRepl (tok t) v s 0 := by
  intro n
  induction n with
  | zero =>
    intro s hlen hinf
    have hple : (tok w).length ≤ s.length := List.IsInfix.length_le hinf
    simp [tok] at hple
    omega
  | succ n ih =>
    intro s hlen hinf
    by_cases hp : (tok t).isPrefixOf s = true
    · rw [List.isPrefixOf_iff_prefix] at hp
      obtain ⟨s₂, hs₂⟩ := hp
      subst hs₂
      rw [goRepl_match _ _ _ (tok_ne_nil t)]
      obtain ⟨u, r, hur⟩ := hinf
      rcases le_or_lt (tok t).length u.length with hle | hlt
      · have htu : tok t <+: u :=
          List.prefix_of_prefix_length_le ⟨s₂, rfl⟩ ⟨tok w ++ r, by rw [← hur]; simp⟩ hle
        obtain ⟨u₂, hu₂⟩ := htu
        have hs₂eq : s₂ = u₂ ++ tok w ++ r := by
          apply @List.append_cancel_left _ (tok t)
          calc tok t ++ s₂ = u ++ tok w ++ r := hur.symm
            _ = tok t ++ (u₂ ++ tok w ++ r) := by rw [← hu₂]; simp
        have hlen₂ : s₂.length ≤ n := by
          simp only [List.length_append, tok, List.length_cons] at hlen
          omega
        exact infix_append_left v (ih s₂ hlen₂ ⟨u₂, r, by rw [hs₂eq]⟩)
      · exfalso
        have hdropeq : (tok t).drop u.length ++ s₂ = tok w ++ r := by
          have h1 := congrArg (List.drop u.length) hur
          rw [List.drop_append_of_le_length (Nat.le_of_lt hlt)] at h1
          rw [List.append_assoc, List.drop_left] at h1
          exact h1.symm ▸ h1
        refine tok_no_overlap w t hw ht (fun h => hne h.symm) u.length s₂ hlt ⟨r, ?_⟩
        exact hdropeq.symm
    · obtain ⟨u, r, hur⟩ := hinf
      cases u with
      | nil =>
        have hs : s = tok w ++ r := by simpa using hur.symm
        subst hs
        rw [goRepl_copy (tok t) v (tok w) r (fun j hj => tok_no_overlap t w ht hw hne j r hj)]
        exact ⟨[], goRepl (tok t) v r 0, by simp⟩
      | cons c u₁ =>
        have hs : s = c :: (u₁ ++ tok w ++ r) := by simpa using hur.symm
        subst hs
        rw [goRepl_no_match _ _ _ _ hp]
        have hlen₃ : (u₁ ++ tok w ++ r).length ≤ n := by
          simp only [List.length_cons] at hlen
          omega
        exact infix_cons c (ih _ hlen₃ ⟨u₁, r, rfl⟩)

/-- If the pattern occurs in the scanned string, the replacement pass embeds
the replacement string into the result. -/
lemma goRepl_inserts (pat v : Str) (hpatne : pat ≠ []) :
    ∀ (n : Nat) (s : Str), s.length ≤ n → pat <:+: s → v <:+: goRepl pat v s 0 := by
  intro n
  induction n with
  | zero =>
    intro s hlen hinf
    have hple : pat.length ≤ s.length := List.IsInfix.length_le hinf
    have hpe : pat = [] := List.eq_nil_of_length_eq_zero (by omega)
    exact absurd hpe hpatne
  | succ n ih =>
    intro s hlen hinf
    by_cases hp : pat.isPrefixOf s = true
    · rw [List.isPrefixOf_iff_prefix] at hp
      obtain ⟨s₂, hs₂⟩ := hp
      subst hs₂
      rw [goRepl_match _ _ _ hpatne]
      exact ⟨[], goRepl pat v s₂ 0, by simp⟩
    · obtain ⟨u, r, hur⟩ := hinf
      cases u with
      | nil =>
        exact absurd (by rw [List.isPrefixOf_iff_prefix]; exact ⟨r, by simpa using hur⟩) hp
      | cons c u₁ =>
        have hs : s = c :: (u₁ ++ pat ++ r) := by simpa using hur.symm
        subst hs
        rw [goRepl_no_match _ _ _ _ hp]
        have hlen₃ : (u₁ ++ pat ++ r).length ≤ n := by
          simp only [List.length_cons] at hlen
          omega
        exact infix_cons c (ih _ hlen₃ ⟨u₁, r, rfl⟩)

lemma scanAux_skip (l : Str) : ∀ s, scanAux (l ++ s) l.length = scanAux s 0 := by
  induction l with
  | nil => intro s; rfl
  | cons c l ih => intro s; exact ih s

lemma scanAux_cons_nonbrace (c : Char) (s' : Str) (hc : c ≠ '{') :
    scanAux (c :: s') 0 = scanAux s' 0 := by
  rw [scanAux]
  intro rest h1 _
  exact hc h1

lemma scanAux_brace_nonbrace (s' : Str) (hs : ∀ rest, s' ≠ '{' :: rest) :
    scanAux ('{' :: s') 0 = scanAux s' 0 := by
  rw [scanAux]
  intro rest _ h2
  exact hs rest h2

lemma scanAux_run_empty (rest : Str) (h : (rest.takeWhile isWordChar).isEmpty = true) :
    scanAux ('{' :: '{' :: rest) 0 = scanAux ('{' :: rest) 0 := by
  rw [scanAux, if_pos h]

lemma scanAux_no_close (rest : Str) (h1 : ¬ (rest.takeWhile isWordChar).isEmpty = true)
    (h2 : ¬ (['}', '}'] : Str).isPrefixOf
        (rest.drop (rest.takeWhile isWordChar).length) = true) :
    scanAux ('{' :: '{' :: rest) 0 = scanAux ('{' :: rest) 0 := by
  rw [scanAux, if_neg h1, if_neg h2]

lemma scanAux_match (rest : Str) (h1 : ¬ (rest.takeWhile isWordChar).isEmpty = true)
    (h2 : (['}', '}'] : Str).isPrefixOf
        (rest.drop (rest.takeWhile isWordChar).length) = true) :
    scanAux ('{' :: '{' :: rest) 0
      = rest.takeWhile isWordChar
          :: scanAux ('{' :: rest) ((rest.takeWhile isWordChar).length + 3) := by
  conv_lhs => rw [scanAux]
  rw [if_neg h1, if_pos h2]

lemma infix_of_suffix {l s r : Str} (h : l <:+: r) : l <:+: s ++ r := by
  obtain ⟨u, t, hu⟩ := h
  exact ⟨s ++ u, t, by rw [← hu]; simp⟩

/-- Every capture of the scanner is a nonempty word string whose full token
occurs in the scanned text. -/
lemma scanTokens_sound : ∀ (n : Nat) (s : Str), s.length ≤ n →
    ∀ m ∈ scanAux s 0, WordStr m ∧ tok m <:+: s := by
  intro n
  induction n with
  | zero =>
    intro s hlen m hm
    have hs : s = [] := List.eq_nil_of_length_eq_zero (Nat.le_zero.mp hlen)
    subst hs
    simp [scanAux] at hm
  | succ n ih =>
    intro s hlen m hm
    cases s with
    | nil => simp [scanAux] at hm
    | cons c s' =>
      have hlen' : s'.length ≤ n := by
        simp only [List.length_cons] at hlen; omega
      by_cases hc : c = '{'
      · subst hc
        cases s' with
        | nil => simp [scanAux] at hm
        | cons c₂ rest =>
          by_cases hc₂ : c₂ = '{'
          · subst hc₂
            by_cases hrun : (rest.takeWhile isWordChar).isEmpty = true
            · rw [scanAux_run_empty rest hrun] at hm
              obtain ⟨hword, hinf⟩ := ih ('{' :: rest) hlen' m hm
              exact ⟨hword, infix_cons _ hinf⟩
            · by_cases hclose : (['}', '}'] : Str).isPrefixOf
                  (rest.drop (rest.takeWhile isWordChar).length) = true
              · rw [scanAux_match rest hrun hclose] at hm
                obtain ⟨t, ht⟩ :=
                  (List.takeWhile_prefix isWordChar : rest.takeWhile isWordChar <+: rest)
                have hdrop : rest.drop (rest.takeWhile isWordChar).length = t := by
                  calc rest.drop (rest.takeWhile isWordChar).length
                      = (rest.takeWhile isWordChar ++ t).drop
                          (rest.takeWhile isWordChar).length := by rw [ht]
                    _ = t := List.drop_left _ _
                rw [hdrop, List.isPrefixOf_iff_prefix] at hclose
                obtain ⟨rem, hrem⟩ := hclose
                have hrest : rest = rest.takeWhile isWordChar ++ ('}' :: '}' :: rem) := by
                  conv_lhs => rw [← ht]
                  rw [← hrem]
                  rfl
                have hword : WordStr (rest.takeWhile isWordChar) :=
                  ⟨by simpa [List.isEmpty_iff] using hrun,
                   fun x hx => List.mem_takeWhile_imp hx⟩
                rcases List.mem_cons.mp hm with hmeq | hmtail
                · rw [hmeq]
                  refine ⟨hword, [], rem, ?_⟩
                  show [] ++ tok (rest.takeWhile isWordChar) ++ rem = '{' :: '{' :: rest
                  conv_rhs => rw [hrest]
                  simp [tok]
                · have hskip : scanAux ('{' :: rest) ((rest.takeWhile isWordChar).length + 3)
                      = scanAux rem 0 := by
                    have hsplit2 : ('{' :: rest)
                        = ('{' :: (rest.takeWhile isWordChar ++ ['}', '}'])) ++ rem := by
                      conv_lhs => rw [hrest]
                      simp
                    rw [hsplit2]
                    have hlength : ('{' :: (rest.takeWhile isWordChar ++ ['}', '}'])).length
                        = (rest.takeWhile isWordChar).length + 3 := by simp
                    rw [← hlength]
                    exact scanAux_skip _ rem
                  rw [hskip] at hmtail
                  have hremlen : rem.length ≤ n := by
                    have hlr := congrArg List.length hrest
                    simp only [List.length_append, List.length_cons] at hlr
                    simp only [List.length_cons] at hlen'
                    omega
                  obtain ⟨hword', hinf'⟩ := ih rem hremlen m hmtail
                  refine ⟨hword', List.IsInfix.trans hinf'
                    ⟨'{' :: '{' :: rest.takeWhile isWordChar ++ ['}', '}'], [], ?_⟩⟩
                  rw [List.append_nil]
                  conv_rhs => rw [hrest]
                  simp
              · rw [scanAux_no_close rest hrun hclose] at hm
                obtain ⟨hword, hinf⟩ := ih ('{' :: rest) hlen' m hm
                exact ⟨hword, infix_cons _ hinf⟩
          · rw [scanAux_brace_nonbrace ((c₂ :: rest)) (fun rest' h => hc₂ (by injection h))] at hm
            obtain ⟨hword, hinf⟩ := ih (c₂ :: rest) hlen' m hm
            exact ⟨hword, infix_cons _ hinf⟩
      · rw [scanAux_cons_nonbrace c s' hc] at hm
        obtain ⟨hword, hinf⟩ := ih s' hlen' m hm
        exact ⟨hword, infix_cons _ hinf⟩

/-- Main invariant of the substitution loop: if every capture is a bound word
name, `w` is a word that is **not** among the captures, and either the token of
some still-pending capture `n₀` (whose value embeds `tok w`) occurs in the
accumulated result, or `tok w` itself already occurs there — then the loop
succeeds and its output contains `tok w` verbatim. -/
lemma substLoop_keeps (vars : VarTable) (w : Str) (hw : WordStr w) :
    ∀ (caps : List Str) (res : Str),
      (∀ n ∈ caps, (lookupVar vars n).isSome = true) →
      (∀ n ∈ caps, WordStr n) →
      w ∉ caps →
      ((∃ n₀ ∈ caps, ∃ v₀, lookupVar vars n₀ = some v₀ ∧ tok w <:+: v₀ ∧ tok n₀ <:+: res)
        ∨ tok w <:+: res) →
      ∃ out, substLoop vars caps res = .ok out ∧ tok w <:+: out := by
  intro caps
  induction caps with
  | nil =>
    intro res _ _ _ hab
    rcases hab with ⟨n₀, hn₀, _⟩ | hb
    · exact absurd hn₀ (List.not_mem_nil n₀)
    · exact ⟨res, rfl, hb⟩
  | cons m caps' ih =>
    intro res hbound hword hnot hab
    have hm : (lookupVar vars m).isSome = true := hbound m (by simp)
    obtain ⟨vm, hvm⟩ := Option.isSome_iff_exists.mp hm
    have hmw : m ≠ w := fun h => hnot (h ▸ List.mem_cons_self m caps')
    have hmword : WordStr m := hword m (by simp)
    have hrepl : replaceAll res (tok m) vm = goRepl (tok m) vm res 0 := by
      rw [replaceAll, if_neg (by simpa using tok_ne_nil m)]
    simp only [substLoop, hvm]
    apply ih
    · intro n hn; exact hbound n (by simp [hn])
    · intro n hn; exact hword n (by simp [hn])
    · intro h; exact hnot (by simp [h])
    · rcases hab with ⟨n₀, hn₀, v₀, hv₀, hwv, hres⟩ | hb
      · by_cases hm₀ : n₀ = m
        · subst hm₀
          right
          rw [hrepl]
          have hveq : vm = v₀ := by
            have h := hv₀.symm.trans hvm
            injection h with h
            exact h.symm
          rw [hveq]
          exact List.IsInfix.trans hwv
            (goRepl_inserts (tok n₀) v₀ (tok_ne_nil n₀) res.length res le_rfl hres)
        · left
          have hn₀' : n₀ ∈ caps' := by
            rcases List.mem_cons.mp hn₀ with h | h
            · exact absurd h hm₀
            · exact h
          refine ⟨n₀, hn₀', v₀, hv₀, hwv, ?_⟩
          rw [hrepl]
          exact goRepl_preserves m n₀ vm hmword (hword n₀ hn₀) (fun h => hm₀ h.symm)
            res.length res le_rfl hres
      · right
        rw [hrepl]
        exact goRepl_preserves m w vm hmword hw hmw res.length res le_rfl hb

/-- **C2 counterexample.** The claim fails when the injected token also occurs
in the original text: with `a ↦ "{{b}}"` and `b ↦ "x"`, substituting
`"{{a}}{{b}}"` yields `"xx"` — the `{{b}}` token injected by `a`'s value does
**not** appear verbatim in the output; the later replacement pass for `b`
(which replaces every occurrence in the accumulated result) rewrote it too. -/
theorem substitute_rescan_counterexample :
    substitute "{{a}}{{b}}".toList
        [("a".toList, "{{b}}".toList), ("b".toList, "x".toList)] = .ok "xx".toList
  ∧ ¬ (tok "b".toList <:+: "xx".toList) := by
  exact ⟨by decide, by decide⟩

/-- **C2 (amended).** `substitute` never re-scans a substituted value: the
replacement passes and the undefined-variable checks are those of the original
text's tokens only, so a `{{w}}` token contained in a substituted value never
triggers a further replacement pass or an undefined-variable error (`w` need
not be bound). Provided `w` is not also a token of the original text, the
injected `{{w}}` appears verbatim (as a substring) in the output; when `w` is
a token of the original text, its replacement pass — which replaces every
occurrence in the accumulated result — rewrites the injected copy as well. -/
theorem substitute_value_token_verbatim (text : Str) (vars : VarTable) (w n₀ v₀ : Str)
    (hbound : ∀ n ∈ scanTokens text, (lookupVar vars n).isSome = true)
    (hw : WordStr w) (hwnot : w ∉ scanTokens text)
    (hn : n₀ ∈ scanTokens text) (hv : lookupVar vars n₀ = some v₀)
    (hin : tok w <:+: v₀) :
    ∃ out, substitute text vars = .ok out ∧ tok w <:+: out := by
  have hsound := scanTokens_sound text.length text le_rfl
  apply substLoop_keeps vars w hw (scanTokens text) text hbound
    (fun n hn' => (hsound n hn').1) hwnot
  left
  exact ⟨n₀, hn, v₀, hv, hin, (hsound n₀ hn).2⟩

/-- Witness for the amended C2: `a ↦ "x{{zzz}}y"` with `zzz` undefined and not
a token of the text — no error, and `{{zzz}}` survives verbatim. -/
theorem substitute_value_token_verbatim_witness :
    ∃ out, substitute "{{a}}".toList [("a".toList, "x{{zzz}}y".toList)] = .ok out
      ∧ tok "zzz".toList <:+: out :=
  substitute_value_token_verbatim "{{a}}".toList [("a".toList, "x{{zzz}}y".toList)]
    "zzz".toList "a".toList "x{{zzz}}y".toList (by decide) (by decide) (by decide)
    (by decide) (by decide) (by decide)

end Poke

-- sanity examples (spec §8)
example : Poke.substitute "{{a}}-{{a}}".toList [("a".toList, "9".toList)]
    = .ok "9-9".toList := by decide
example : Poke.substitute "{{missing}}".toList []
    = .error (.undefinedVariable "missing".toList) := by decide
example : Poke.substitute "{not_a_var}".toList [] = .ok "{not_a_var}".toList := by decide
example : Poke.scanTokens "{{baseUrl}}/users/{{id}}".toList
    = ["baseUrl".toList, "id".toList] := by decide
-- the C2 counterexample behaviour
example : Poke.substitute "{{a}}{{b}}".toList
    [("a".toList, "{{b}}".toList), ("b".toList, "x".toList)] = .ok "xx".toList := by decide

-- parser sanity examples (from the parser's own tests and spec §8)
example : Poke.parseContent "GET https://api.example.com/users".toList
    = .ok ([{ name := none, method := .get, url := "https://api.example.com/users".toList,
              headers := [], body := none }], []) := by decide
example :
    (Poke.parseContent "@x = 1\n@x = 2\n".toList).map (fun r => Poke.lookupVar r.2 "x".toList)
      = .ok (some "2".toList) := by decide
example :
    (Poke.parseContent "GET https://x/y\nAuthorization: Bearer {{tok}}\n\n@tok=abc".toList).map
        (fun r => r.1.map (fun q => (q.headers, q.body)))
      = .ok [([("Authorization".toList, "Bearer {{tok}}".toList)], (none : Option Poke.Str))]
      := by decide
example :
    (Poke.parseContent "GET https://x/y\nAuthorization: Bearer {{tok}}\n\n@tok=abc".toList).map
        (fun r => Poke.lookupVar r.2 "tok".toList) = .ok (some "abc".toList) := by decide
example :  -- repeated header keys: last wins in the final map
    (Poke.parseContent "GET https://x\nK: v1\nK: v2".toList).map
        (fun r => r.1.map (·.headers)) = .ok [[("K".toList, "v2".toList)]] := by decide
example :  -- ### name inheritance and two requests in order
    (Poke.parseContent "### A\nGET https://a\n\n### B\nPOST https://b\n".toList).map
        (fun r => r.1.map (fun q => (q.name, q.url)))
      = .ok [(some "A".toList, "https://a".toList), (some "B".toList, "https://b".toList)]
      := by decide
